import Mathlib

/-!
Verification of the Bao tree codec reference implementation
(`docs/bao-reference.py`): the BLAKE3 compression function, chunk and
parent chaining values, the recursive encoder, the streaming decoder, the
iterative streaming hasher, and the slice producer/verifier.

Bytes are modelled as natural numbers (byte strings as `List Nat`), machine
words as naturals reduced modulo 2^32 by the explicit maskings the source
performs.  Streams are modelled as the list of bytes remaining on them:
`read(n)` takes a prefix, `seek(n, 1)` drops a prefix, and a short read
(`read_exact` hitting EOF) or a failed `assert` makes the operation return
`none`.  The streaming hasher's `input_stream.read(CHUNK_SIZE)` is modelled
as returning `min 1024 remaining` bytes, the behaviour of a buffered file
stream.  Python's `int.to_bytes(8, "little")` raises for values ≥ 2^64, so
theorems that pass a content length through the 8-byte header carry the
hypothesis `length < 2^64`.
-/

namespace Bao

/-- The BLAKE3 initialization constants (`IV`). -/
def IV : List Nat :=
  [0x6A09E667, 0xBB67AE85, 0x3C6EF372, 0xA54FF53A,
   0x510E527F, 0x9B05688C, 0x1F83D9AB, 0x5BE0CD19]

/-- The BLAKE3 message schedule (`MSG_SCHEDULE`). -/
def MSG_SCHEDULE : List (List Nat) :=
  [[0, 1, 2, 3, 4, 5, 6, 7, 8, 9, 10, 11, 12, 13, 14, 15],
   [2, 6, 3, 10, 7, 0, 4, 13, 1, 11, 12, 5, 9, 14, 15, 8],
   [3, 4, 10, 12, 13, 2, 7, 14, 6, 5, 9, 0, 11, 15, 8, 1],
   [10, 7, 12, 9, 14, 3, 13, 15, 4, 0, 11, 2, 5, 8, 1, 6],
   [12, 13, 9, 11, 15, 10, 14, 8, 7, 2, 5, 3, 0, 1, 6, 4],
   [9, 14, 11, 5, 8, 12, 15, 1, 13, 3, 0, 10, 2, 6, 4, 7],
   [11, 15, 5, 0, 1, 9, 8, 6, 14, 10, 2, 12, 3, 4, 7, 13]]

def BLOCK_SIZE : Nat := 64
def CHUNK_SIZE : Nat := 1024
def HASH_SIZE : Nat := 32
def PARENT_SIZE : Nat := 2 * HASH_SIZE
def WORD_BITS : Nat := 32
def WORD_BYTES : Nat := 4
def WORD_MAX : Nat := 2 ^ WORD_BITS - 1
def HEADER_SIZE : Nat := 8

/-- Domain flag bits. -/
def CHUNK_START : Nat := 1
def CHUNK_END : Nat := 2
def PARENT : Nat := 4
def ROOT : Nat := 8

/-- Finalization markers (`IS_ROOT` / `NOT_ROOT` sentinel objects). -/
inductive Finalization where
  | IS_ROOT : Finalization
  | NOT_ROOT : Finalization
deriving DecidableEq

export Finalization (IS_ROOT NOT_ROOT)

def wrapping_add (a b : Nat) : Nat := (a + b) &&& WORD_MAX

def rotate_right (x n : Nat) : Nat := (x >>> n ||| x <<< (WORD_BITS - n)) &&& WORD_MAX

/-- The BLAKE3 G function.  The source mutates four cells of the state
array; here the four updated cells are returned as a tuple. -/
def g (a b c d x y : Nat) : Nat × Nat × Nat × Nat :=
  let a := wrapping_add a (wrapping_add b x)
  let d := rotate_right (d ^^^ a) 16
  let c := wrapping_add c d
  let b := rotate_right (b ^^^ c) 12
  let a := wrapping_add a (wrapping_add b y)
  let d := rotate_right (d ^^^ a) 8
  let c := wrapping_add c d
  let b := rotate_right (b ^^^ c) 7
  (a, b, c, d)

/-- The BLAKE3 round function (`round` in the source; renamed since
Mathlib already has a root-level `round`).  The sixteen state cells are
destructured, the eight G applications mix the four columns and then the
four diagonals exactly as the source spells them out, and the state is
reassembled. -/
def roundFn (m sch st : List Nat) : List Nat :=
  match st with
  | [s0, s1, s2, s3, s4, s5, s6, s7, s8, s9, s10, s11, s12, s13, s14, s15] =>
    let w := fun i => m.getD (sch.getD i 0) 0
    let (s0, s4, s8, s12) := g s0 s4 s8 s12 (w 0) (w 1)
    let (s1, s5, s9, s13) := g s1 s5 s9 s13 (w 2) (w 3)
    let (s2, s6, s10, s14) := g s2 s6 s10 s14 (w 4) (w 5)
    let (s3, s7, s11, s15) := g s3 s7 s11 s15 (w 6) (w 7)
    let (s0, s5, s10, s15) := g s0 s5 s10 s15 (w 8) (w 9)
    let (s1, s6, s11, s12) := g s1 s6 s11 s12 (w 10) (w 11)
    let (s2, s7, s8, s13) := g s2 s7 s8 s13 (w 12) (w 13)
    let (s3, s4, s9, s14) := g s3 s4 s9 s14 (w 14) (w 15)
    [s0, s1, s2, s3, s4, s5, s6, s7, s8, s9, s10, s11, s12, s13, s14, s15]
  | _ => st

/-- Little-endian 4-byte words from a byte buffer (excess trailing bytes,
fewer than four, are dropped, as in the source's `len(buf) // 4`). -/
def words_from_bytes : List Nat → List Nat
  | b0 :: b1 :: b2 :: b3 :: rest =>
    (b0 + 256 * b1 + 256 ^ 2 * b2 + 256 ^ 3 * b3) :: words_from_bytes rest
  | _ => []

/-- Little-endian bytes from a list of 32-bit words. -/
def bytes_from_words : List Nat → List Nat
  | [] => []
  | wd :: rest =>
    wd % 256 :: wd / 256 % 256 :: wd / 256 ^ 2 % 256 :: wd / 256 ^ 3 % 256 ::
      bytes_from_words rest

/-- The truncated BLAKE3 compression function.  The final line mirrors the
source's `[state[i] ^ state[i + 8] for i in range(8)]`. -/
def compress (cv block : List Nat) (block_len offset flags : Nat) : List Nat :=
  let block_words := words_from_bytes block
  let state : List Nat :=
    [cv.getD 0 0, cv.getD 1 0, cv.getD 2 0, cv.getD 3 0,
     cv.getD 4 0, cv.getD 5 0, cv.getD 6 0, cv.getD 7 0,
     IV.getD 0 0, IV.getD 1 0, IV.getD 2 0, IV.getD 3 0,
     offset &&& WORD_MAX, (offset >>> WORD_BITS) &&& WORD_MAX, block_len, flags]
  let state := roundFn block_words (MSG_SCHEDULE.getD 0 []) state
  let state := roundFn block_words (MSG_SCHEDULE.getD 1 []) state
  let state := roundFn block_words (MSG_SCHEDULE.getD 2 []) state
  let state := roundFn block_words (MSG_SCHEDULE.getD 3 []) state
  let state := roundFn block_words (MSG_SCHEDULE.getD 4 []) state
  let state := roundFn block_words (MSG_SCHEDULE.getD 5 []) state
  let state := roundFn block_words (MSG_SCHEDULE.getD 6 []) state
  [state.getD 0 0 ^^^ state.getD 8 0, state.getD 1 0 ^^^ state.getD 9 0,
   state.getD 2 0 ^^^ state.getD 10 0, state.getD 3 0 ^^^ state.getD 11 0,
   state.getD 4 0 ^^^ state.getD 12 0, state.getD 5 0 ^^^ state.getD 13 0,
   state.getD 6 0 ^^^ state.getD 14 0, state.getD 7 0 ^^^ state.getD 15 0]

/-- The block loop inside `chunk_chaining_value`: while more than one
block remains, compress a full block (the source tracks the position with
an index `i`; here the unread suffix of the chunk is passed along). -/
def chunk_cv_go (cv chunk_bytes : List Nat) (chunk_index flags : Nat)
    (finalization : Finalization) : List Nat :=
  if BLOCK_SIZE < chunk_bytes.length then
    chunk_cv_go (compress cv (chunk_bytes.take BLOCK_SIZE) BLOCK_SIZE chunk_index flags)
      (chunk_bytes.drop BLOCK_SIZE) chunk_index 0 finalization
  else
    let flags := flags ||| CHUNK_END ||| (if finalization = IS_ROOT then ROOT else 0)
    let block_len := chunk_bytes.length
    let block := chunk_bytes ++ List.replicate (BLOCK_SIZE - block_len) 0
    bytes_from_words (compress cv block block_len chunk_index flags)
termination_by chunk_bytes.length
decreasing_by simpa [BLOCK_SIZE] using Nat.lt_of_lt_of_le (by omega) (le_refl _)

/-- Compute a BLAKE3 chunk chaining value (`chunk_chaining_value`). -/
def chunk_chaining_value (chunk_bytes : List Nat) (chunk_index : Nat)
    (finalization : Finalization) : List Nat :=
  chunk_cv_go IV chunk_bytes chunk_index CHUNK_START finalization

/-- Compute a BLAKE3 parent node chaining value (`parent_chaining_value`). -/
def parent_chaining_value (parent_bytes : List Nat) (finalization : Finalization) :
    List Nat :=
  let flags := PARENT ||| (if finalization = IS_ROOT then ROOT else 0)
  bytes_from_words (compress IV parent_bytes BLOCK_SIZE 0 flags)

/-- Verify a chunk chaining value (the source's `assert` succeeds iff the
recomputed CV equals the expected one). -/
def verify_chunk (expected_cv chunk_bytes : List Nat) (chunk_index : Nat)
    (finalization : Finalization) : Bool :=
  chunk_chaining_value chunk_bytes chunk_index finalization = expected_cv

/-- Verify a parent node chaining value. -/
def verify_parent (expected_cv parent_bytes : List Nat)
    (finalization : Finalization) : Bool :=
  parent_chaining_value parent_bytes finalization = expected_cv

/-- Encode a content length as the 8-byte little-endian header
(`encode_len`; total on all naturals, faithful below 2^64 where Python's
`to_bytes` is defined). -/
def encode_len (content_len : Nat) : List Nat :=
  [content_len % 256, content_len / 256 % 256, content_len / 256 ^ 2 % 256,
   content_len / 256 ^ 3 % 256, content_len / 256 ^ 4 % 256,
   content_len / 256 ^ 5 % 256, content_len / 256 ^ 6 % 256,
   content_len / 256 ^ 7 % 256]

/-- Decode a little-endian length (`decode_len`). -/
def decode_len : List Nat → Nat
  | [] => 0
  | b :: rest => b + 256 * decode_len rest

/-- Python `int.bit_length()`: 0 for 0, `floor(log2 n) + 1` otherwise. -/
def bit_length (n : Nat) : Nat := if n = 0 then 0 else Nat.log2 n + 1

/-- Left subtrees contain the largest possible power of two chunks, with
at least one byte left for the right subtree (`left_len`). -/
def left_len (parent_len : Nat) : Nat :=
  let available_chunks := (parent_len - 1) / CHUNK_SIZE
  let power_of_two_chunks := 2 ^ (bit_length available_chunks - 1)
  CHUNK_SIZE * power_of_two_chunks

/-- Number of chunks of a content length (`count_chunks`). -/
def count_chunks (content_len : Nat) : Nat :=
  if content_len = 0 then 1 else (content_len + CHUNK_SIZE - 1) / CHUNK_SIZE

/-- Size in bytes of the encoding of a subtree (`encoded_subtree_size`). -/
def encoded_subtree_size (content_len : Nat) (outboard : Bool) : Nat :=
  let parents_size := PARENT_SIZE * (count_chunks content_len - 1)
  if outboard then parents_size else parents_size + content_len

theorem log2_two_pow_mul_add {e r : Nat} (hr : r < 2 ^ e) :
    Nat.log2 (2 ^ e + r) = e := by
  have h1 : 2 ^ e ≤ 2 ^ e + r := Nat.le_add_right _ _
  have h2 : 2 ^ e + r < 2 ^ (e + 1) := by
    have : 2 ^ (e + 1) = 2 ^ e + 2 ^ e := by ring
    omega
  have hne : 2 ^ e + r ≠ 0 := by positivity
  rw [Nat.log2_eq_log_two]
  exact Nat.log_eq_of_pow_le_of_lt_pow h1 h2

theorem bit_length_pos {n : Nat} (hn : 0 < n) : bit_length n = Nat.log2 n + 1 := by
  unfold bit_length
  simp [Nat.pos_iff_ne_zero.mp hn]

theorem left_len_eq (L : Nat) (hL : 1024 < L) :
    left_len L = 1024 * 2 ^ Nat.log2 ((L - 1) / 1024) := by
  have ha : 0 < (L - 1) / 1024 := by
    apply Nat.div_pos <;> omega
  simp only [left_len, CHUNK_SIZE, bit_length_pos ha, Nat.add_sub_cancel]

theorem left_len_ge (L : Nat) (hL : 1024 < L) : 1024 ≤ left_len L := by
  rw [left_len_eq L hL]
  have : 1 ≤ 2 ^ Nat.log2 ((L - 1) / 1024) := Nat.one_le_two_pow
  omega

theorem left_len_le (L : Nat) (hL : 1024 < L) : left_len L ≤ L - 1 := by
  rw [left_len_eq L hL]
  have ha : (L - 1) / 1024 ≠ 0 := by
    have : 0 < (L - 1) / 1024 := by apply Nat.div_pos <;> omega
    omega
  have h1 : 2 ^ Nat.log2 ((L - 1) / 1024) ≤ (L - 1) / 1024 := Nat.log2_self_le ha
  have h2 : 1024 * ((L - 1) / 1024) ≤ L - 1 := Nat.mul_div_le (L - 1) 1024 |>.trans_eq rfl
  calc 1024 * 2 ^ Nat.log2 ((L - 1) / 1024) ≤ 1024 * ((L - 1) / 1024) := by
        exact Nat.mul_le_mul_left _ h1
    _ ≤ L - 1 := Nat.mul_div_le (L - 1) 1024

theorem left_len_lt (L : Nat) (hL : 1024 < L) : left_len L < L := by
  have := left_len_le L hL
  omega

theorem left_len_pos (L : Nat) (hL : 1024 < L) : 0 < left_len L := by
  have := left_len_ge L hL
  omega

/-- The left length of a subtree made of a complete power-of-two block of
full chunks followed by a non-empty remainder of at most the same size is
exactly the complete block. -/
theorem left_len_append {e rb : Nat} (hr1 : 1 ≤ rb) (hr2 : rb ≤ 1024 * 2 ^ e) :
    left_len (1024 * 2 ^ e + rb) = 1024 * 2 ^ e := by
  have hL : 1024 < 1024 * 2 ^ e + rb := by
    have : 1 ≤ 2 ^ e := Nat.one_le_two_pow
    omega
  rw [left_len_eq _ hL]
  have hdiv : (1024 * 2 ^ e + rb - 1) / 1024 = 2 ^ e + (rb - 1) / 1024 := by
    have : 1024 * 2 ^ e + rb - 1 = 1024 * 2 ^ e + (rb - 1) := by omega
    rw [this, Nat.mul_add_div (by norm_num : (0:Nat) < 1024)]
  rw [hdiv, log2_two_pow_mul_add]
  have : (rb - 1) / 1024 ≤ (1024 * 2 ^ e - 1) / 1024 := by
    apply Nat.div_le_div_right
    omega
  have h2 : (1024 * 2 ^ e - 1) / 1024 < 2 ^ e := by
    rw [Nat.div_lt_iff_lt_mul (by norm_num : (0:Nat) < 1024)]
    have : 1 ≤ 2 ^ e := Nat.one_le_two_pow
    omega
  omega

theorem count_chunks_le (L : Nat) (h : L ≤ 1024) : count_chunks L = 1 := by
  unfold count_chunks
  rcases Nat.eq_zero_or_pos L with h0 | h0
  · simp [h0]
  · have : L ≠ 0 := by omega
    simp only [this, if_false, CHUNK_SIZE]
    omega

theorem count_chunks_pos (L : Nat) : 0 < count_chunks L := by
  unfold count_chunks
  rcases Nat.eq_zero_or_pos L with h0 | h0
  · simp [h0]
  · have : L ≠ 0 := by omega
    simp only [this, if_false, CHUNK_SIZE]
    have : 0 < (L + 1024 - 1) / 1024 := by
      apply Nat.div_pos <;> omega
    omega

theorem count_chunks_eq_succ (L : Nat) (hL : 0 < L) :
    count_chunks L = (L - 1) / 1024 + 1 := by
  unfold count_chunks
  have : L ≠ 0 := by omega
  simp only [this, if_false, CHUNK_SIZE]
  have : L + 1024 - 1 = (L - 1) + 1 * 1024 := by omega
  rw [this, Nat.add_mul_div_right _ _ (by norm_num : (0:Nat) < 1024)]

theorem count_chunks_mul_pow (e : Nat) : count_chunks (1024 * 2 ^ e) = 2 ^ e := by
  have hpos : 0 < 1024 * 2 ^ e := by positivity
  rw [count_chunks_eq_succ _ hpos]
  have h1 : 1 ≤ 2 ^ e := Nat.one_le_two_pow
  have h2 : 1024 * 2 ^ e - 1 = 1024 * (2 ^ e - 1) + 1023 := by omega
  rw [h2, Nat.mul_add_div (by norm_num : (0:Nat) < 1024)]
  have : (1023 : Nat) / 1024 = 0 := by norm_num
  omega

/-- Chunk counts add across the left/right split of an internal subtree. -/
theorem count_chunks_split (L : Nat) (hL : 1024 < L) :
    count_chunks (left_len L) + count_chunks (L - left_len L) = count_chunks L := by
  set e := Nat.log2 ((L - 1) / 1024) with he
  have hll : left_len L = 1024 * 2 ^ e := left_len_eq L hL
  have hle : left_len L ≤ L - 1 := left_len_le L hL
  have hpos : 0 < left_len L := left_len_pos L hL
  have h1 : count_chunks (left_len L) = 2 ^ e := by rw [hll]; exact count_chunks_mul_pow e
  have h2 : count_chunks (L - left_len L) = (L - left_len L - 1) / 1024 + 1 :=
    count_chunks_eq_succ _ (by omega)
  have h3 : count_chunks L = (L - 1) / 1024 + 1 := count_chunks_eq_succ _ (by omega)
  have h4 : (L - left_len L - 1) / 1024 = (L - 1) / 1024 - 2 ^ e := by
    have hsub : L - left_len L - 1 = (L - 1) - 1024 * 2 ^ e := by omega
    rw [hsub, Nat.sub_mul_div _ _ _ (by omega)]
  have h5 : 2 ^ e ≤ (L - 1) / 1024 := by
    have ha : (L - 1) / 1024 ≠ 0 := by
      have : 0 < (L - 1) / 1024 := by apply Nat.div_pos <;> omega
      omega
    exact Nat.log2_self_le ha
  omega

/-! ## Encoder -/

/-- The recursive encoder body (`encode_recurse` inside `bao_encode`).
Returns `(encoded, chaining value, next chunk index)`; the source threads
the chunk index through a `nonlocal` counter. -/
def encode_recurse (buf : List Nat) (chunk_index : Nat) (outboard : Bool)
    (finalization : Finalization) : List Nat × List Nat × Nat :=
  if h : buf.length ≤ CHUNK_SIZE then
    let chunk_cv := chunk_chaining_value buf chunk_index finalization
    let chunk_encoded := if outboard then [] else buf
    (chunk_encoded, chunk_cv, chunk_index + 1)
  else
    let llen := left_len buf.length
    let left := encode_recurse (buf.take llen) chunk_index outboard NOT_ROOT
    let right := encode_recurse (buf.drop llen) left.2.2 outboard NOT_ROOT
    let node := left.2.1 ++ right.2.1
    (node ++ left.1 ++ right.1, parent_chaining_value node finalization, right.2.2)
termination_by buf.length
decreasing_by
  · simp only [List.length_take]
    have h1 := left_len_lt buf.length (by simpa [CHUNK_SIZE] using h)
    have h2 := left_len_pos buf.length (by simpa [CHUNK_SIZE] using h)
    omega
  · simp only [List.length_drop]
    have h1 := left_len_lt buf.length (by simpa [CHUNK_SIZE] using h)
    have h2 := left_len_pos buf.length (by simpa [CHUNK_SIZE] using h)
    omega

/-- Encode a full buffer (`bao_encode`): the 8-byte length header followed
by the pre-order encoded tree, together with the root hash. -/
def bao_encode (buf : List Nat) (outboard : Bool) : List Nat × List Nat :=
  let res := encode_recurse buf 0 outboard IS_ROOT
  (encode_len buf.length ++ res.1, res.2.1)

/-! ## Full decoder (combined mode: the tree stream and the content stream
are the same stream, as when `bao_decode` is called with
`outboard_stream=None`). -/

/-- The recursive decoder body (`decode_recurse` inside `bao_decode`).
The stream is the list of not-yet-read bytes; on success returns
`(rest of stream, bytes written to the output, next chunk index)`.
`none` models an `IOError` from `read_exact` or a failed verification
`assert`. -/
def decode_recurse (stream : List Nat) (chunk_index : Nat) (subtree_cv : List Nat)
    (content_len : Nat) (finalization : Finalization) :
    Option (List Nat × List Nat × Nat) :=
  if h : content_len ≤ CHUNK_SIZE then
    if stream.length < content_len then none
    else
      let chunk := stream.take content_len
      if verify_chunk subtree_cv chunk chunk_index finalization then
        some (stream.drop content_len, chunk, chunk_index + 1)
      else none
  else
    if stream.length < PARENT_SIZE then none
    else
      let parent := stream.take PARENT_SIZE
      if verify_parent subtree_cv parent finalization then
        let left_cv := parent.take HASH_SIZE
        let right_cv := parent.drop HASH_SIZE
        let llen := left_len content_len
        match decode_recurse (stream.drop PARENT_SIZE) chunk_index left_cv llen NOT_ROOT with
        | none => none
        | some (s1, out1, ci1) =>
          match decode_recurse s1 ci1 right_cv (content_len - llen) NOT_ROOT with
          | none => none
          | some (s2, out2, ci2) => some (s2, out1 ++ out2, ci2)
      else none
termination_by content_len
decreasing_by
  · exact left_len_lt content_len (by simpa [CHUNK_SIZE] using h)
  · have h1 := left_len_pos content_len (by simpa [CHUNK_SIZE] using h)
    omega

/-- Decode a combined encoding against an expected root hash
(`bao_decode` with `outboard_stream=None`); returns the verified output
bytes. -/
def bao_decode (input_stream : List Nat) (hash_ : List Nat) : Option (List Nat) :=
  if input_stream.length < HEADER_SIZE then none
  else
    let content_len := decode_len (input_stream.take HEADER_SIZE)
    match decode_recurse (input_stream.drop HEADER_SIZE) 0 hash_ content_len IS_ROOT with
    | none => none
    | some (_, out, _) => some out

/-! ## Streaming hasher -/

/-- Python `bin(n).count("1")`. -/
def popcount (n : Nat) : Nat :=
  if n = 0 then 0 else n % 2 + popcount (n / 2)
termination_by n
decreasing_by exact Nat.div_lt_self (by omega) (by norm_num)

/-- The pop-and-merge loop run after a full chunk is hashed: pop subtree
CVs and combine until the stack (with the new CV pushed) would have
`total` entries, then push. -/
def merge_go (subtrees : List (List Nat)) (new_subtree : List Nat) (total : Nat) :
    List (List Nat) :=
  if h : total < subtrees.length + 1 then
    match subtrees, h with
    | s :: rest, _ =>
      merge_go rest (parent_chaining_value (s ++ new_subtree) NOT_ROOT) total
    | [], _ => [new_subtree]
  else new_subtree :: subtrees
termination_by subtrees.length
decreasing_by simp

/-- The end-of-input merge loop of `bao_hash`: pop and combine under
NOT_ROOT while more than one stack entry remains, then combine the last
entry under IS_ROOT.  The stack is kept top-first (Python appends and pops
at the end of its list). -/
def finalize_go : List (List Nat) → List Nat → List Nat
  | [], new_subtree => new_subtree
  | [s], new_subtree => parent_chaining_value (s ++ new_subtree) IS_ROOT
  | s :: rest, new_subtree =>
    finalize_go rest (parent_chaining_value (s ++ new_subtree) NOT_ROOT)

/-- The EOF branch of the `bao_hash` read loop. -/
def bao_hash_finalize (buf : List Nat) (chunks : Nat) (subtrees : List (List Nat)) :
    List Nat :=
  if chunks = 0 then chunk_chaining_value buf chunks IS_ROOT
  else finalize_go subtrees (chunk_chaining_value buf chunks NOT_ROOT)

/-- The read loop of `bao_hash`.  `rem` is what is left on the input
stream; each `read(CHUNK_SIZE)` returns `rem.take 1024`. -/
def bao_hash_loop (buf rem : List Nat) (chunks : Nat) (subtrees : List (List Nat)) :
    List Nat :=
  if hrem : rem = [] then bao_hash_finalize buf chunks subtrees
  else
    if CHUNK_SIZE ≤ buf.length then
      let new_subtree := chunk_chaining_value (buf.take CHUNK_SIZE) chunks NOT_ROOT
      let chunks1 := chunks + 1
      let total_after_merging := popcount chunks1
      let subtrees1 := merge_go subtrees new_subtree total_after_merging
      bao_hash_loop (buf.drop CHUNK_SIZE ++ rem.take CHUNK_SIZE) (rem.drop CHUNK_SIZE)
        chunks1 subtrees1
    else
      bao_hash_loop (buf ++ rem.take CHUNK_SIZE) (rem.drop CHUNK_SIZE) chunks subtrees
termination_by rem.length
decreasing_by
  · simp only [List.length_drop]
    have : 0 < rem.length := List.length_pos.mpr hrem
    simp only [CHUNK_SIZE]
    omega
  · simp only [List.length_drop]
    have : 0 < rem.length := List.length_pos.mpr hrem
    simp only [CHUNK_SIZE]
    omega

/-- The streaming hasher (`bao_hash`), applied to a stream that yields the
byte string `input`. -/
def bao_hash (input : List Nat) : List Nat := bao_hash_loop [] input 0 []

/-! ## Slice producer (combined mode: `outboard_stream=None`, so the tree
stream and the content stream are the same stream and both kinds of seek
and read advance it). -/

/-- The recursive slice extractor (`slice_recurse` inside `bao_slice`).
`input` is the unread rest of the (seekable) encoded stream; on success
returns `(rest of stream, bytes written to the slice)`. -/
def slice_recurse (input : List Nat) (slice_start slice_end : Nat)
    (subtree_start subtree_len : Nat) : Option (List Nat × List Nat) :=
  if subtree_start + subtree_len ≤ slice_start then
    let parent_nodes_size := encoded_subtree_size subtree_len true
    some (input.drop (parent_nodes_size + subtree_len), [])
  else if slice_end ≤ subtree_start then
    some (input, [])
  else if h : subtree_len ≤ CHUNK_SIZE then
    if input.length < subtree_len then none
    else some (input.drop subtree_len, input.take subtree_len)
  else
    if input.length < PARENT_SIZE then none
    else
      let parent := input.take PARENT_SIZE
      let llen := left_len subtree_len
      match slice_recurse (input.drop PARENT_SIZE) slice_start slice_end
          subtree_start llen with
      | none => none
      | some (in1, out1) =>
        match slice_recurse in1 slice_start slice_end
            (subtree_start + llen) (subtree_len - llen) with
        | none => none
        | some (in2, out2) => some (in2, parent ++ out1 ++ out2)
termination_by subtree_len
decreasing_by
  · exact left_len_lt subtree_len (by simpa [CHUNK_SIZE] using h)
  · have h1 := left_len_pos subtree_len (by simpa [CHUNK_SIZE] using h)
    omega

/-- Extract a slice from a full combined encoding (`bao_slice` with
`outboard_stream=None`): the slice begins with the 8-byte header.  The
slice end is computed from the caller's `slice_start` before the
out-of-range clamping, exactly as in the source. -/
def bao_slice (input : List Nat) (slice_start slice_len : Nat) :
    Option (List Nat) :=
  if input.length < HEADER_SIZE then none
  else
    let content_len_bytes := input.take HEADER_SIZE
    let content_len := decode_len content_len_bytes
    let slice_len1 := if slice_len = 0 then 1 else slice_len
    let slice_end := slice_start + slice_len1
    let slice_start1 :=
      if content_len ≤ slice_start then
        if 0 < content_len then content_len - 1 else 0
      else slice_start
    match slice_recurse (input.drop HEADER_SIZE) slice_start1 slice_end 0 content_len with
    | none => none
    | some (_, out) => some (content_len_bytes ++ out)

/-! ## Slice verifier -/

/-- The recursive slice verifier (`decode_slice_recurse` inside
`bao_decode_slice`).  Mirrors the producer's traversal but verifies every
parent and chunk and emits only the bytes inside the requested range
(nothing when `skip_output` is set). -/
def decode_slice_recurse (input : List Nat) (content_len slice_start slice_end : Nat)
    (skip_output : Bool) (subtree_start subtree_len : Nat) (subtree_cv : List Nat)
    (finalization : Finalization) : Option (List Nat × List Nat) :=
  if subtree_start + subtree_len ≤ slice_start ∧ 0 < content_len then
    some (input, [])
  else if slice_end ≤ subtree_start ∧ 0 < content_len then
    some (input, [])
  else if h : subtree_len ≤ CHUNK_SIZE then
    if input.length < subtree_len then none
    else
      let chunk := input.take subtree_len
      let chunk_index := subtree_start / CHUNK_SIZE
      if verify_chunk subtree_cv chunk chunk_index finalization then
        let chunk_start := max 0 (min subtree_len (slice_start - subtree_start))
        let chunk_end := max 0 (min subtree_len (slice_end - subtree_start))
        let out := if skip_output then [] else (chunk.take chunk_end).drop chunk_start
        some (input.drop subtree_len, out)
      else none
  else
    if input.length < PARENT_SIZE then none
    else
      let parent := input.take PARENT_SIZE
      if verify_parent subtree_cv parent finalization then
        let left_cv := parent.take HASH_SIZE
        let right_cv := parent.drop HASH_SIZE
        let llen := left_len subtree_len
        match decode_slice_recurse (input.drop PARENT_SIZE) content_len slice_start
            slice_end skip_output subtree_start llen left_cv NOT_ROOT with
        | none => none
        | some (in1, out1) =>
          match decode_slice_recurse in1 content_len slice_start slice_end
              skip_output (subtree_start + llen) (subtree_len - llen) right_cv
              NOT_ROOT with
          | none => none
          | some (in2, out2) => some (in2, out1 ++ out2)
      else none
termination_by subtree_len
decreasing_by
  · exact left_len_lt subtree_len (by simpa [CHUNK_SIZE] using h)
  · have h1 := left_len_pos subtree_len (by simpa [CHUNK_SIZE] using h)
    omega

/-- Verify a slice stream against the root hash and the requested byte
range (`bao_decode_slice`); returns the verified in-range bytes. -/
def bao_decode_slice (input : List Nat) (hash_ : List Nat)
    (slice_start slice_len : Nat) : Option (List Nat) :=
  if input.length < HEADER_SIZE then none
  else
    let content_len := decode_len (input.take HEADER_SIZE)
    let skip0 := slice_len = 0
    let slice_len1 := if slice_len = 0 then 1 else slice_len
    let slice_end := slice_start + slice_len1
    let skip_output := skip0 ∨ content_len ≤ slice_start
    let slice_start1 :=
      if content_len ≤ slice_start then
        if 0 < content_len then content_len - 1 else 0
      else slice_start
    match decode_slice_recurse (input.drop HEADER_SIZE) content_len slice_start1
        slice_end skip_output 0 content_len hash_ IS_ROOT with
    | none => none
    | some (_, out) => some out

/-! ## Basic structural lemmas -/

theorem compress_length (cv block : List Nat) (bl off fl : Nat) :
    (compress cv block bl off fl).length = 8 := rfl

theorem bytes_from_words_length (ws : List Nat) :
    (bytes_from_words ws).length = 4 * ws.length := by
  induction ws with
  | nil => simp [bytes_from_words]
  | cons w rest ih => simp [bytes_from_words, ih]; omega

theorem chunk_cv_go_length (cv chunk_bytes : List Nat) (ci fl : Nat)
    (f : Finalization) : (chunk_cv_go cv chunk_bytes ci fl f).length = 32 := by
  induction cv, chunk_bytes, ci, fl, f using chunk_cv_go.induct with
  | case1 cv chunk_bytes ci fl f h ih =>
    rw [chunk_cv_go, if_pos h]
    exact ih
  | case2 cv chunk_bytes ci fl f h =>
    rw [chunk_cv_go, if_neg h]
    simp [bytes_from_words_length, compress_length]

theorem chunk_chaining_value_length (chunk_bytes : List Nat) (ci : Nat)
    (f : Finalization) : (chunk_chaining_value chunk_bytes ci f).length = 32 :=
  chunk_cv_go_length _ _ _ _ _

theorem parent_chaining_value_length (parent_bytes : List Nat) (f : Finalization) :
    (parent_chaining_value parent_bytes f).length = 32 := by
  simp [parent_chaining_value, bytes_from_words_length, compress_length]

/-! ## Encoder lemmas -/

theorem encode_recurse_leaf (buf : List Nat) (i : Nat) (ob : Bool)
    (f : Finalization) (h : buf.length ≤ 1024) :
    encode_recurse buf i ob f =
      (if ob then [] else buf, chunk_chaining_value buf i f, i + 1) := by
  rw [encode_recurse]
  simp [CHUNK_SIZE, h]

theorem encode_recurse_node (buf : List Nat) (i : Nat) (ob : Bool)
    (f : Finalization) (h : 1024 < buf.length) :
    encode_recurse buf i ob f =
      (let llen := left_len buf.length
       let left := encode_recurse (buf.take llen) i ob NOT_ROOT
       let right := encode_recurse (buf.drop llen) left.2.2 ob NOT_ROOT
       let node := left.2.1 ++ right.2.1
       (node ++ left.1 ++ right.1, parent_chaining_value node f, right.2.2)) := by
  rw [encode_recurse]
  simp only [CHUNK_SIZE]
  rw [dif_neg (by omega)]

/-- The encoder's chunk counter advances by the chunk count of the
subtree. -/
theorem encode_recurse_index (buf : List Nat) (i : Nat) (ob : Bool)
    (f : Finalization) :
    (encode_recurse buf i ob f).2.2 = i + count_chunks buf.length := by
  by_cases h : buf.length ≤ 1024
  · rw [encode_recurse_leaf buf i ob f h]
    simp [count_chunks_le _ h]
  · push_neg at h
    have hlt := left_len_lt buf.length h
    have hpos := left_len_pos buf.length h
    simp only [encode_recurse_node buf i ob f h]
    rw [encode_recurse_index (buf.drop (left_len buf.length)) _ ob NOT_ROOT,
      encode_recurse_index (buf.take (left_len buf.length)) i ob NOT_ROOT]
    have hsplit := count_chunks_split buf.length h
    rw [List.length_take, List.length_drop]
    have hmin : min (left_len buf.length) buf.length = left_len buf.length :=
      min_eq_left (by omega)
    rw [hmin]
    omega
termination_by buf.length
decreasing_by
  · simp only [List.length_drop]; omega
  · simp only [List.length_take]; omega

/-- The chaining value and chunk counter do not depend on the outboard
flag. -/
theorem encode_recurse_cv_outboard (buf : List Nat) (i : Nat) (ob : Bool)
    (f : Finalization) :
    (encode_recurse buf i ob f).2 = (encode_recurse buf i false f).2 := by
  by_cases h : buf.length ≤ 1024
  · rw [encode_recurse_leaf buf i ob f h, encode_recurse_leaf buf i false f h]
  · push_neg at h
    have hlt := left_len_lt buf.length h
    have hpos := left_len_pos buf.length h
    simp only [encode_recurse_node buf i ob f h, encode_recurse_node buf i false f h]
    have e1 : (encode_recurse (buf.take (left_len buf.length)) i ob NOT_ROOT).2 =
        (encode_recurse (buf.take (left_len buf.length)) i false NOT_ROOT).2 :=
      encode_recurse_cv_outboard _ i ob NOT_ROOT
    have e2 : ∀ j, (encode_recurse (buf.drop (left_len buf.length)) j ob NOT_ROOT).2 =
        (encode_recurse (buf.drop (left_len buf.length)) j false NOT_ROOT).2 :=
      fun j => encode_recurse_cv_outboard _ j ob NOT_ROOT
    have ecv : (encode_recurse (buf.take (left_len buf.length)) i ob NOT_ROOT).2.1 =
        (encode_recurse (buf.take (left_len buf.length)) i false NOT_ROOT).2.1 :=
      congrArg Prod.fst e1
    have eci : (encode_recurse (buf.take (left_len buf.length)) i ob NOT_ROOT).2.2 =
        (encode_recurse (buf.take (left_len buf.length)) i false NOT_ROOT).2.2 :=
      congrArg Prod.snd e1
    rw [ecv, eci, e2]
termination_by buf.length
decreasing_by
  · simp only [List.length_take]; omega
  · simp only [List.length_drop]; omega

theorem encode_recurse_cv_length (buf : List Nat) (i : Nat) (ob : Bool)
    (f : Finalization) : (encode_recurse buf i ob f).2.1.length = 32 := by
  by_cases h : buf.length ≤ 1024
  · rw [encode_recurse_leaf buf i ob f h]
    exact chunk_chaining_value_length _ _ _
  · push_neg at h
    simp only [encode_recurse_node buf i ob f h]
    exact parent_chaining_value_length _ _

/-- Size of the encoded output of a subtree. -/
theorem encode_recurse_size (buf : List Nat) (i : Nat) (ob : Bool)
    (f : Finalization) :
    (encode_recurse buf i ob f).1.length = encoded_subtree_size buf.length ob := by
  by_cases h : buf.length ≤ 1024
  · rw [encode_recurse_leaf buf i ob f h]
    simp only [encoded_subtree_size, count_chunks_le _ h, PARENT_SIZE, HASH_SIZE]
    cases ob <;> simp
  · push_neg at h
    have hlt := left_len_lt buf.length h
    have hpos := left_len_pos buf.length h
    simp only [encode_recurse_node buf i ob f h]
    simp only [List.length_append]
    rw [encode_recurse_size (buf.take (left_len buf.length)) i ob NOT_ROOT,
      encode_recurse_size (buf.drop (left_len buf.length)) _ ob NOT_ROOT]
    have hsplit := count_chunks_split buf.length h
    have hcl := encode_recurse_cv_length (buf.take (left_len buf.length)) i ob NOT_ROOT
    have hcr := encode_recurse_cv_length (buf.drop (left_len buf.length))
      (encode_recurse (buf.take (left_len buf.length)) i ob NOT_ROOT).2.2 ob NOT_ROOT
    rw [List.length_take, List.length_drop] at *
    have hmin : min (left_len buf.length) buf.length = left_len buf.length :=
      min_eq_left (by omega)
    rw [hmin] at *
    have c1 := count_chunks_pos (left_len buf.length)
    have c2 := count_chunks_pos (buf.length - left_len buf.length)
    simp only [encoded_subtree_size, PARENT_SIZE, HASH_SIZE] at *
    cases ob <;> simp only [if_true, if_false, Bool.false_eq_true] at * <;> omega
termination_by buf.length
decreasing_by
  · simp only [List.length_take]; omega
  · simp only [List.length_drop]; omega

/-! ## List helpers -/

theorem take_append_exact {α : Type} (l1 l2 : List α) (n : Nat) (h : n = l1.length) :
    (l1 ++ l2).take n = l1 := by subst h; exact List.take_left l1 l2

theorem drop_append_exact {α : Type} (l1 l2 : List α) (n : Nat) (h : n = l1.length) :
    (l1 ++ l2).drop n = l2 := by subst h; exact List.drop_left l1 l2

/-! ## Header lemmas -/

theorem encode_len_length (n : Nat) : (encode_len n).length = 8 := rfl

theorem decode_len_encode_len (n : Nat) (h : n < 2 ^ 64) :
    decode_len (encode_len n) = n := by
  simp only [encode_len, decode_len]
  omega

/-! ## Decoder unfolding lemmas -/

theorem decode_recurse_leaf (stream : List Nat) (i : Nat) (cv : List Nat)
    (L : Nat) (f : Finalization) (h : L ≤ 1024) :
    decode_recurse stream i cv L f =
      if stream.length < L then none
      else if chunk_chaining_value (stream.take L) i f = cv then
        some (stream.drop L, stream.take L, i + 1)
      else none := by
  rw [decode_recurse]
  simp [CHUNK_SIZE, h, verify_chunk]

theorem decode_recurse_node (stream : List Nat) (i : Nat) (cv : List Nat)
    (L : Nat) (f : Finalization) (h : 1024 < L) :
    decode_recurse stream i cv L f =
      if stream.length < 64 then none
      else if parent_chaining_value (stream.take 64) f = cv then
        match decode_recurse (stream.drop 64) i ((stream.take 64).take 32)
            (left_len L) NOT_ROOT with
        | none => none
        | some (s1, out1, ci1) =>
          match decode_recurse s1 ci1 ((stream.take 64).drop 32) (L - left_len L)
              NOT_ROOT with
          | none => none
          | some (s2, out2, ci2) => some (s2, out1 ++ out2, ci2)
      else none := by
  rw [decode_recurse]
  rw [dif_neg (by simp only [CHUNK_SIZE]; omega)]
  simp only [PARENT_SIZE, HASH_SIZE, verify_parent]
  simp

/-- Decoding the encoder's output for a subtree consumes exactly that
output, emits exactly the subtree's bytes, succeeds, and advances the
chunk counter like the encoder. -/
theorem decode_encode_recurse (buf rest : List Nat) (i : Nat) (f : Finalization) :
    decode_recurse ((encode_recurse buf i false f).1 ++ rest) i
      ((encode_recurse buf i false f).2.1) buf.length f =
      some (rest, buf, i + count_chunks buf.length) := by
  by_cases h : buf.length ≤ 1024
  · rw [encode_recurse_leaf buf i false f h]
    simp only [if_false, Bool.false_eq_true, ite_false]
    rw [decode_recurse_leaf _ _ _ _ _ h]
    rw [if_neg (by simp only [List.length_append]; omega)]
    rw [take_append_exact buf rest _ rfl, drop_append_exact buf rest _ rfl]
    rw [if_pos rfl, count_chunks_le _ h]
  · push_neg at h
    have hlt := left_len_lt buf.length h
    have hpos := left_len_pos buf.length h
    simp only [encode_recurse_node buf i false f h]
    set llen := left_len buf.length with hllen
    set A := buf.take llen with hA
    set B := buf.drop llen with hB
    set eL := encode_recurse A i false NOT_ROOT with heL
    set eR := encode_recurse B eL.2.2 false NOT_ROOT with heR
    have hAlen : A.length = llen := by
      rw [hA, List.length_take]; omega
    have hBlen : B.length = buf.length - llen := by
      rw [hB, List.length_drop]
    have hnode : (eL.2.1 ++ eR.2.1).length = 64 := by
      rw [List.length_append, encode_recurse_cv_length, encode_recurse_cv_length]
    rw [decode_recurse_node _ _ _ _ _ h]
    have hassoc : eL.2.1 ++ eR.2.1 ++ eL.1 ++ eR.1 ++ rest =
        (eL.2.1 ++ eR.2.1) ++ (eL.1 ++ (eR.1 ++ rest)) := by
      simp [List.append_assoc]
    rw [hassoc]
    have h64 : 64 ≤ ((eL.2.1 ++ eR.2.1) ++ (eL.1 ++ (eR.1 ++ rest))).length := by
      simp only [List.length_append]
      simp only [List.length_append] at hnode
      omega
    rw [if_neg (by omega)]
    rw [take_append_exact _ _ _ hnode.symm]
    rw [if_pos rfl]
    rw [take_append_exact eL.2.1 eR.2.1 _ (encode_recurse_cv_length _ _ _ _).symm,
      drop_append_exact eL.2.1 eR.2.1 _ (encode_recurse_cv_length _ _ _ _).symm]
    rw [drop_append_exact _ _ _ hnode.symm]
    have hdl : decode_recurse (eL.1 ++ (eR.1 ++ rest)) i eL.2.1 llen NOT_ROOT =
        some (eR.1 ++ rest, A, i + count_chunks llen) := by
      have := decode_encode_recurse A (eR.1 ++ rest) i NOT_ROOT
      rw [hAlen] at this
      rw [← heL] at this
      exact this
    rw [hdl]
    dsimp only
    have hiL : eL.2.2 = i + count_chunks llen := by
      rw [heL, encode_recurse_index, hAlen]
    have hdr : decode_recurse (eR.1 ++ rest) (i + count_chunks llen) eR.2.1
        (buf.length - llen) NOT_ROOT =
        some (rest, B, i + count_chunks llen + count_chunks (buf.length - llen)) := by
      have := decode_encode_recurse B rest eL.2.2 NOT_ROOT
      rw [hBlen] at this
      rw [← heR, hiL] at this
      exact this
    rw [hdr]
    dsimp only
    have hsplit := count_chunks_split buf.length h
    rw [hA, hB, List.take_append_drop]
    rw [← hllen] at hsplit
    rw [show i + count_chunks llen + count_chunks (buf.length - llen) =
      i + count_chunks buf.length by omega]
termination_by buf.length
decreasing_by
  · simp only [List.length_take]; omega
  · simp only [List.length_drop]; omega

/-! ## Derived definitions used by later theorems -/

/-- The chaining value the encoder assigns to a subtree (outboard has no
effect on it, `encode_recurse_cv_outboard`). -/
def subtree_cv (buf : List Nat) (i : Nat) (f : Finalization) : List Nat :=
  (encode_recurse buf i false f).2.1

/-- Largest power of two dividing a positive number. -/
def lowbit : Nat → Nat
  | 0 => 0
  | n + 1 => if (n + 1) % 2 = 1 then 1 else 2 * lowbit ((n + 1) / 2)
decreasing_by omega

theorem lowbit_pos : ∀ n : Nat, 0 < n → 0 < lowbit n
  | n + 1, _ => by
    rw [lowbit]
    split
    · omega
    · rename_i hodd
      have h2 : 0 < (n + 1) / 2 := by omega
      have := lowbit_pos ((n + 1) / 2) h2
      omega
termination_by n _ => n
decreasing_by omega

theorem lowbit_le : ∀ n : Nat, lowbit n ≤ n
  | 0 => by simp [lowbit]
  | n + 1 => by
    rw [lowbit]
    split
    · omega
    · have h2 : (n + 1) / 2 < n + 1 := by omega
      have := lowbit_le ((n + 1) / 2)
      omega
termination_by n => n
decreasing_by omega

/-- The subtree-CV stack the streaming hasher maintains after `k` full
chunks of the input `x` have been hashed, top of stack first: one entry
per set bit of `k`, the topmost covering the lowest set bit's worth of
most recent chunks. -/
def stackSpec (x : List Nat) : Nat → List (List Nat)
  | 0 => []
  | k + 1 =>
    subtree_cv ((x.drop (1024 * (k + 1 - lowbit (k + 1)))).take (1024 * lowbit (k + 1)))
      (k + 1 - lowbit (k + 1)) NOT_ROOT ::
    stackSpec x (k + 1 - lowbit (k + 1))
decreasing_by
  have := lowbit_pos (n + 1) (by omega)
  omega

/-- The byte ranges the slice producer emits for a subtree: nothing for a
subtree disjoint from the requested range, the whole chunk for an
intersecting leaf, and the two child CVs followed by both children's
output for an intersecting internal node. -/
def sliceOut (x : List Nat) (ss se s L : Nat) : List Nat :=
  if s + L ≤ ss then []
  else if se ≤ s then []
  else if h : L ≤ 1024 then (x.drop s).take L
  else
    subtree_cv ((x.drop s).take (left_len L)) (s / 1024) NOT_ROOT ++
    subtree_cv ((x.drop (s + left_len L)).take (L - left_len L))
      ((s + left_len L) / 1024) NOT_ROOT ++
    sliceOut x ss se s (left_len L) ++
    sliceOut x ss se (s + left_len L) (L - left_len L)
termination_by L
decreasing_by
  · exact left_len_lt L (by omega)
  · have := left_len_pos L (by omega)
    omega

/-- A number is the greatest power of two that is at most `m`. -/
def IsGreatestPow2Le (m p : Nat) : Prop :=
  (∃ e, p = 2 ^ e) ∧ p ≤ m ∧ ∀ q, (∃ e, q = 2 ^ e) → q ≤ m → q ≤ p

/-- A number is the greatest power of two strictly below `m`. -/
def IsGreatestPow2Lt (m p : Nat) : Prop :=
  (∃ e, p = 2 ^ e) ∧ p < m ∧ ∀ q, (∃ e, q = 2 ^ e) → q < m → q ≤ p

/-! ## Claim C1: combined round-trip -/

/-- C1: for every byte string x (length below 2^64, the domain of the
8-byte header), decoding the combined encoding produced by
`bao_encode x (outboard := false)` against the root hash returned by that
same call succeeds and writes exactly x to the output sink. -/
theorem C1_roundtrip_combined (x : List Nat) (hlen : x.length < 2 ^ 64) :
    bao_decode (bao_encode x false).1 (bao_encode x false).2 = some x := by
  unfold bao_decode bao_encode
  simp only []
  have hhl : (encode_len x.length).length = 8 := encode_len_length x.length
  rw [if_neg (by simp only [List.length_append, HEADER_SIZE, hhl]; omega)]
  rw [take_append_exact _ _ _ (by simp [HEADER_SIZE, hhl]),
    drop_append_exact _ _ _ (by simp [HEADER_SIZE, hhl])]
  rw [decode_len_encode_len _ hlen]
  have := decode_encode_recurse x [] 0 IS_ROOT
  rw [List.append_nil] at this
  rw [this]

/-- Witness instantiating C1 at a concrete input. -/
theorem C1_roundtrip_combined_witness :
    ([1, 2, 3] : List Nat).length < 2 ^ 64 ∧
      bao_decode (bao_encode [1, 2, 3] false).1 (bao_encode [1, 2, 3] false).2 =
        some [1, 2, 3] :=
  ⟨by norm_num, C1_roundtrip_combined [1, 2, 3] (by norm_num)⟩

/-! ## Claim C6: encoded sizes -/

/-- C6: the combined encoding of x has exactly
`8 + 64 * (count_chunks |x| - 1) + |x|` bytes and the outboard encoding
has exactly `8 + 64 * (count_chunks |x| - 1)` bytes. -/
theorem C6_encoded_sizes (x : List Nat) :
    (bao_encode x false).1.length = 8 + 64 * (count_chunks x.length - 1) + x.length ∧
    (bao_encode x true).1.length = 8 + 64 * (count_chunks x.length - 1) := by
  constructor <;>
  · unfold bao_encode
    simp only [List.length_append, encode_len_length, encode_recurse_size,
      encoded_subtree_size, PARENT_SIZE, HASH_SIZE]
    simp only [if_true, if_false, Bool.false_eq_true, ite_true, ite_false]
    try omega

/-! ## Claims C4 and C5: the left-subtree rule -/

/-- Counterexample to C4 as stated: at L = 2048 the ceiling formula gives
`available_chunks = ⌈2047/1024⌉ = 2`, whose greatest power of two below
or equal is p = 2 (and only 2), yet `left_len 2048 = 1024 ≠ 1024 * 2`. -/
theorem C4_counterexample :
    1024 < 2048 ∧ (2048 - 1 + 1023) / 1024 = 2 ∧ IsGreatestPow2Le 2 2 ∧
      (∀ p, IsGreatestPow2Le 2 p → p = 2) ∧ left_len 2048 ≠ 1024 * 2 := by
  have hll : left_len 2048 = 1024 := by
    rw [left_len_eq 2048 (by norm_num)]
    norm_num [Nat.log2]
  refine ⟨by norm_num, by norm_num, ⟨⟨1, rfl⟩, le_refl 2, ?_⟩, ?_, by omega⟩
  · rintro q ⟨e, rfl⟩ hle
    exact hle
  · rintro p ⟨⟨e, rfl⟩, hle, hmax⟩
    have h2 : (2 : Nat) ≤ 2 ^ e := hmax 2 ⟨1, rfl⟩ (le_refl 2)
    omega

/-- C4 amended: for L > 1024, `left_len L = 1024 * p` where p is the
greatest power of two at most `available_chunks = (L - 1) / 1024`
(floor division, as the code computes it, not the spec's ceiling). -/
theorem C4_left_len_formula (L : Nat) (hL : 1024 < L) :
    ∃ p, IsGreatestPow2Le ((L - 1) / 1024) p ∧ left_len L = 1024 * p := by
  have ha : 0 < (L - 1) / 1024 := by apply Nat.div_pos <;> omega
  have hane : (L - 1) / 1024 ≠ 0 := by omega
  refine ⟨2 ^ Nat.log2 ((L - 1) / 1024), ⟨⟨_, rfl⟩, Nat.log2_self_le hane, ?_⟩,
    left_len_eq L hL⟩
  rintro q ⟨e, rfl⟩ hle
  have he : e ≤ Nat.log2 ((L - 1) / 1024) := (Nat.le_log2 hane).mpr hle
  exact Nat.pow_le_pow_right (by norm_num) he

/-- Witness instantiating the amended C4 at L = 2048. -/
theorem C4_left_len_formula_witness :
    1024 < 2048 ∧ ∃ p, IsGreatestPow2Le ((2048 - 1) / 1024) p ∧
      left_len 2048 = 1024 * p :=
  ⟨by norm_num, C4_left_len_formula 2048 (by norm_num)⟩

/-- C5: for L > 1024 the left length is 1024 times a power of two, is at
least 1024 and less than L (so both children are non-empty and the left
child is a complete power-of-two-chunk subtree), and the left child's
chunk count is the greatest power of two strictly below `count_chunks L`. -/
theorem C5_left_subtree_shape (L : Nat) (hL : 1024 < L) :
    (∃ e, left_len L = 1024 * 2 ^ e) ∧ 1024 ≤ left_len L ∧ left_len L < L ∧
      IsGreatestPow2Lt (count_chunks L) (left_len L / 1024) := by
  have ha : 0 < (L - 1) / 1024 := by apply Nat.div_pos <;> omega
  have hane : (L - 1) / 1024 ≠ 0 := by omega
  have hcc : count_chunks L = (L - 1) / 1024 + 1 := count_chunks_eq_succ L (by omega)
  have hdiv : left_len L / 1024 = 2 ^ Nat.log2 ((L - 1) / 1024) := by
    rw [left_len_eq L hL]
    exact Nat.mul_div_cancel_left _ (by norm_num)
  refine ⟨⟨Nat.log2 ((L - 1) / 1024), left_len_eq L hL⟩, left_len_ge L hL,
    left_len_lt L hL, ⟨⟨_, hdiv⟩, ?_, ?_⟩⟩
  · rw [hdiv, hcc]
    have := Nat.log2_self_le hane
    omega
  · rintro q ⟨e, rfl⟩ hlt
    rw [hcc] at hlt
    have hle : 2 ^ e ≤ (L - 1) / 1024 := by omega
    have he : e ≤ Nat.log2 ((L - 1) / 1024) := (Nat.le_log2 hane).mpr hle
    rw [hdiv]
    exact Nat.pow_le_pow_right (by norm_num) he

/-- Witness instantiating C5 at L = 2048. -/
theorem C5_left_subtree_shape_witness :
    1024 < 2048 ∧ ((∃ e, left_len 2048 = 1024 * 2 ^ e) ∧ 1024 ≤ left_len 2048 ∧
      left_len 2048 < 2048 ∧
      IsGreatestPow2Lt (count_chunks 2048) (left_len 2048 / 1024)) :=
  ⟨by norm_num, C5_left_subtree_shape 2048 (by norm_num)⟩

/-! ## Claim C7: empty input -/

theorem chunk_cv_empty_root :
    chunk_chaining_value [] 0 IS_ROOT =
      [0xaf, 0x13, 0x49, 0xb9, 0xf5, 0xf9, 0xa1, 0xa6, 0xa0, 0x40, 0x4d, 0xea,
       0x36, 0xdc, 0xc9, 0x49, 0x9b, 0xcb, 0x25, 0xc9, 0xad, 0xc1, 0x12, 0xb7,
       0xcc, 0x9a, 0x93, 0xca, 0xe4, 0x1f, 0x32, 0x62] := by
  rw [chunk_chaining_value, chunk_cv_go]
  rw [if_neg (by simp [BLOCK_SIZE])]
  decide

/-- C7: the hash of the empty input is the BLAKE3 empty hash
af1349b9f5f9a1a6a0404dea36dcc9499bcb25c9adc112b7cc9a93cae41f3262 and the
combined encoding of the empty input is the 8-byte all-zero length header
with no chunk bytes. -/
theorem C7_empty_input :
    bao_hash [] =
      [0xaf, 0x13, 0x49, 0xb9, 0xf5, 0xf9, 0xa1, 0xa6, 0xa0, 0x40, 0x4d, 0xea,
       0x36, 0xdc, 0xc9, 0x49, 0x9b, 0xcb, 0x25, 0xc9, 0xad, 0xc1, 0x12, 0xb7,
       0xcc, 0x9a, 0x93, 0xca, 0xe4, 0x1f, 0x32, 0x62] ∧
    (bao_encode [] false).1 = [0, 0, 0, 0, 0, 0, 0, 0] := by
  constructor
  · rw [bao_hash, bao_hash_loop, dif_pos rfl, bao_hash_finalize, if_pos rfl]
    exact chunk_cv_empty_root
  · unfold bao_encode
    rw [encode_recurse_leaf [] 0 false IS_ROOT (by simp)]
    simp [encode_len]

/-! ## Claim C10: the slice verifier authenticates the root even for the
empty input -/

theorem bao_hash_nil : bao_hash [] = chunk_chaining_value [] 0 IS_ROOT := by
  rw [bao_hash, bao_hash_loop, dif_pos rfl, bao_hash_finalize, if_pos rfl]

/-- Verifying any range against the all-zero 8-byte header (the combined
encoding of the empty input) checks the supplied hash against the root CV
of the empty chunk and writes nothing. -/
theorem decode_slice_zero_header (slice_start slice_len : Nat) (h : List Nat) :
    bao_decode_slice [0, 0, 0, 0, 0, 0, 0, 0] h slice_start slice_len =
      if h = bao_hash [] then some [] else none := by
  rw [bao_decode_slice]
  rw [if_neg (by simp [HEADER_SIZE])]
  have hcl : decode_len (List.take HEADER_SIZE [0, 0, 0, 0, 0, 0, 0, 0]) = 0 := by
    decide
  simp only [hcl]
  rw [decode_slice_recurse]
  simp only [Nat.add_zero, Nat.lt_irrefl, and_false, if_false]
  rw [dif_pos (by simp [CHUNK_SIZE])]
  simp only [List.drop, List.length_nil, Nat.lt_irrefl, if_false]
  simp only [verify_chunk, List.take_nil, Nat.zero_div]
  rw [bao_hash_nil]
  by_cases hh : chunk_chaining_value [] 0 IS_ROOT = h
  · rw [if_pos (by simpa using hh), if_pos hh.symm]
    simp
  · rw [if_neg (by simpa using hh), if_neg (fun hc => hh hc.symm)]

/-- C10: on the encoding of the empty input (the all-zero 8-byte header,
which is also its own slice for every range), `bao_decode_slice` with any
requested range still reads the empty chunk, verifies it at chunk index 0
with ROOT finalization, succeeds exactly when the supplied hash is
`bao_hash []`, and never writes any output bytes. -/
theorem C10_empty_decode_slice (slice_start slice_len : Nat) (h : List Nat) :
    bao_decode_slice [0, 0, 0, 0, 0, 0, 0, 0] h slice_start slice_len =
      if h = bao_hash [] then some [] else none :=
  decode_slice_zero_header slice_start slice_len h

/-! ## Popcount and lowbit facts -/

theorem popcount_zero : popcount 0 = 0 := by rw [popcount]; simp

theorem popcount_two_mul (n : Nat) : popcount (2 * n) = popcount n := by
  rcases Nat.eq_zero_or_pos n with h0 | h0
  · simp [h0, popcount_zero]
  · rw [popcount, if_neg (by omega)]
    simp [Nat.mul_div_cancel_left n (by norm_num : (0:Nat) < 2), Nat.mul_mod_right]

theorem popcount_two_mul_add_one (n : Nat) : popcount (2 * n + 1) = popcount n + 1 := by
  rw [popcount, if_neg (by omega)]
  have h1 : (2 * n + 1) % 2 = 1 := by omega
  have h2 : (2 * n + 1) / 2 = n := by omega
  rw [h1, h2]
  omega

theorem popcount_succ_le : ∀ j : Nat, popcount (j + 1) ≤ popcount j + 1
  | 0 => by simp [popcount_zero, popcount]
  | j + 1 => by
    rcases Nat.even_or_odd (j + 1) with ⟨m, hm⟩ | ⟨m, hm⟩
    · rw [hm]
      have h2 : m + m = 2 * m := by omega
      rw [h2, show 2 * m + 1 = 2 * m + 1 from rfl, popcount_two_mul_add_one,
        popcount_two_mul]
    · have hj : j + 1 = 2 * m + 1 := by omega
      rw [hj, show 2 * m + 1 + 1 = 2 * (m + 1) from by omega, popcount_two_mul,
        popcount_two_mul_add_one]
      have := popcount_succ_le m
      omega
termination_by j => j
decreasing_by omega

theorem popcount_pow_mul (e m : Nat) : popcount (2 ^ e * m) = popcount m := by
  induction e with
  | zero => simp
  | succ e ih =>
    rw [show 2 ^ (e + 1) * m = 2 * (2 ^ e * m) from by ring, popcount_two_mul, ih]

theorem popcount_pos (n : Nat) (hn : 0 < n) : 0 < popcount n := by
  rcases Nat.even_or_odd n with ⟨m, hm⟩ | ⟨m, hm⟩
  · have h2 : n = 2 * m := by omega
    subst h2
    rw [popcount_two_mul]
    have : 0 < m := by omega
    exact popcount_pos m this
  · have h2 : n = 2 * m + 1 := by omega
    subst h2
    rw [popcount_two_mul_add_one]
    omega
termination_by n
decreasing_by omega

theorem lowbit_odd (m : Nat) (h : m % 2 = 1) : lowbit m = 1 := by
  obtain ⟨n, rfl⟩ : ∃ n, m = n + 1 := ⟨m - 1, by omega⟩
  rw [lowbit, if_pos h]

theorem lowbit_two_mul (m : Nat) (h : 0 < m) : lowbit (2 * m) = 2 * lowbit m := by
  obtain ⟨n, hn⟩ : ∃ n, 2 * m = n + 1 := ⟨2 * m - 1, by omega⟩
  rw [hn, lowbit, if_neg (by omega)]
  rw [show (n + 1) / 2 = m from by omega]

theorem lowbit_decomp (k : Nat) (hk : 0 < k) :
    ∃ e j, k = 2 ^ e * (2 * j + 1) ∧ lowbit k = 2 ^ e := by
  rcases Nat.even_or_odd k with ⟨m, hm⟩ | ⟨m, hm⟩
  · have h2 : k = 2 * m := by omega
    have hm0 : 0 < m := by omega
    obtain ⟨e, j, hj, hl⟩ := lowbit_decomp m hm0
    exact ⟨e + 1, j, by rw [h2, hj]; ring, by
      rw [h2, lowbit_two_mul m hm0, hl]; ring⟩
  · have h2 : k = 2 * m + 1 := by omega
    exact ⟨0, m, by omega, by rw [lowbit_odd k (by omega)]; norm_num⟩
termination_by k
decreasing_by omega

theorem lowbit_pow_odd (e j : Nat) : lowbit (2 ^ e * (2 * j + 1)) = 2 ^ e := by
  induction e with
  | zero => simpa using lowbit_odd (2 * j + 1) (by omega)
  | succ e ih =>
    rw [show 2 ^ (e + 1) * (2 * j + 1) = 2 * (2 ^ e * (2 * j + 1)) from by ring,
      lowbit_two_mul _ (by positivity), ih]
    ring

theorem popcount_sub_lowbit (k : Nat) (hk : 0 < k) :
    popcount (k - lowbit k) + 1 = popcount k := by
  obtain ⟨e, j, hj, hl⟩ := lowbit_decomp k hk
  rw [hj, lowbit_pow_odd]
  rw [show 2 ^ e * (2 * j + 1) - 2 ^ e = 2 ^ e * (2 * j) from by ring_nf; omega]
  rw [popcount_pow_mul, popcount_pow_mul, popcount_two_mul, popcount_two_mul_add_one]

theorem stackSpec_length (x : List Nat) (k : Nat) :
    (stackSpec x k).length = popcount k := by
  rcases Nat.eq_zero_or_pos k with h0 | h0
  · subst h0; rw [stackSpec, popcount_zero]; rfl
  · obtain ⟨n, rfl⟩ : ∃ n, k = n + 1 := ⟨k - 1, by omega⟩
    rw [stackSpec, List.length_cons, stackSpec_length x (n + 1 - lowbit (n + 1))]
    have := lowbit_pos (n + 1) (by omega)
    have := popcount_sub_lowbit (n + 1) (by omega)
    omega
termination_by k
decreasing_by
  have := lowbit_pos (n + 1) (by omega)
  omega

/-- Unfolding lemma: for positive k the stack is its top entry over the
lowest set bit's chunks on top of the stack for `k - lowbit k`. -/
theorem stackSpec_cons (x : List Nat) (k : Nat) (hk : 0 < k) :
    stackSpec x k =
      subtree_cv ((x.drop (1024 * (k - lowbit k))).take (1024 * lowbit k))
        (k - lowbit k) NOT_ROOT :: stackSpec x (k - lowbit k) := by
  obtain ⟨n, rfl⟩ : ∃ n, k = n + 1 := ⟨k - 1, by omega⟩
  rw [stackSpec]

/-! ## Combining adjacent subtree CVs -/

theorem subtree_cv_leaf (buf : List Nat) (i : Nat) (f : Finalization)
    (h : buf.length ≤ 1024) :
    subtree_cv buf i f = chunk_chaining_value buf i f := by
  rw [subtree_cv, encode_recurse_leaf buf i false f h]

/-- Combining the CV of a complete power-of-two subtree of full chunks
with the CV of a right sibling of at most that many bytes yields the CV
of the concatenated subtree: the parent of the two CVs under the given
finalization. -/
theorem parent_combine (A B : List Nat) (i e : Nat) (f : Finalization)
    (hA : A.length = 1024 * 2 ^ e) (hB1 : 1 ≤ B.length)
    (hB2 : B.length ≤ 1024 * 2 ^ e) :
    parent_chaining_value
        (subtree_cv A i NOT_ROOT ++ subtree_cv B (i + 2 ^ e) NOT_ROOT) f =
      subtree_cv (A ++ B) i f := by
  have hlen : (A ++ B).length = 1024 * 2 ^ e + B.length := by
    rw [List.length_append, hA]
  have hgt : 1024 < (A ++ B).length := by
    have : 1 ≤ 2 ^ e := Nat.one_le_two_pow
    rw [hlen]; omega
  have hll : left_len (A ++ B).length = A.length := by
    rw [hlen, left_len_append hB1 hB2, hA]
  apply Eq.symm
  rw [subtree_cv, encode_recurse_node _ _ _ _ hgt]
  simp only [hll]
  rw [take_append_exact A B _ rfl, drop_append_exact A B _ rfl]
  rw [encode_recurse_index A i false NOT_ROOT]
  rw [show count_chunks A.length = 2 ^ e from by rw [hA]; exact count_chunks_mul_pow e]
  rfl

/-! ## The pop-and-merge loop maintains the stack invariant -/

theorem slice_split (x : List Nat) (s a b : Nat) :
    (x.drop s).take (a + b) = (x.drop s).take a ++ (x.drop (s + a)).take b := by
  rw [List.take_add, List.drop_drop]

theorem slice_length (x : List Nat) (s n : Nat) (h : s + n ≤ x.length) :
    ((x.drop s).take n).length = n := by
  rw [List.length_take, List.length_drop]
  omega

theorem merge_spec (x : List Nat) (e m : Nat)
    (hfull : 1024 * (2 ^ e * m + 2 ^ e) ≤ x.length) :
    merge_go (stackSpec x (2 ^ e * m))
      (subtree_cv ((x.drop (1024 * (2 ^ e * m))).take (1024 * 2 ^ e))
        (2 ^ e * m) NOT_ROOT)
      (popcount (2 ^ e * m + 2 ^ e)) =
    stackSpec x (2 ^ e * m + 2 ^ e) := by
  have hp1 : (1:Nat) ≤ 2 ^ e := Nat.one_le_two_pow
  rcases Nat.eq_zero_or_pos m with hm0 | hmpos
  · -- empty stack: push
    subst hm0
    have hpc1 : popcount (2 ^ e) = 1 := by
      rw [show (2:Nat) ^ e = 2 ^ e * (2 * 0 + 1) from by ring, popcount_pow_mul]
      rw [popcount]
      simp [popcount_zero]
    have hlow : lowbit (2 ^ e) = 2 ^ e := by
      rw [show (2:Nat) ^ e = 2 ^ e * (2 * 0 + 1) from by ring, lowbit_pow_odd]
      ring
    simp only [Nat.mul_zero, Nat.zero_add]
    rw [stackSpec, merge_go]
    rw [dif_neg (by simp only [List.length_nil, hpc1]; omega)]
    rw [stackSpec_cons x _ (by positivity : (0:Nat) < 2 ^ e), hlow]
    simp [stackSpec]
  · rcases Nat.even_or_odd m with ⟨m2, hm2⟩ | ⟨m2, hm2⟩
    · -- even m: the new count's lowest bit is 2^e, push without merging
      have hm : m = 2 * m2 := by omega
      rw [merge_go]
      rw [dif_neg (by
        rw [stackSpec_length]
        rw [show 2 ^ e * m + 2 ^ e = 2 ^ e * (m + 1) from by ring, popcount_pow_mul,
          popcount_pow_mul]
        rw [hm, show 2 * m2 + 1 = 2 * m2 + 1 from rfl, popcount_two_mul_add_one,
          popcount_two_mul]
        omega)]
      rw [show 2 ^ e * m + 2 ^ e = 2 ^ e * (2 * m2 + 1) from by rw [hm]; ring]
      rw [stackSpec_cons x (2 ^ e * (2 * m2 + 1)) (by positivity), lowbit_pow_odd]
      rw [show 2 ^ e * (2 * m2 + 1) - 2 ^ e = 2 ^ e * m from by rw [hm]; ring_nf; omega]
    · -- odd m: pop the top (same-size) subtree, combine, and recurse
      have hm : m = 2 * m2 + 1 := by omega
      have hlow : lowbit (2 ^ e * m) = 2 ^ e := by rw [hm]; exact lowbit_pow_odd e m2
      have hle : 2 ^ e ≤ 2 ^ e * m := Nat.le_mul_of_pos_right _ hmpos
      have hps : (2:Nat) ^ (e + 1) = 2 * 2 ^ e := by rw [pow_succ]; ring
      have harith1 : 2 ^ e * m - 2 ^ e = 2 ^ (e + 1) * m2 := by
        rw [hm, Nat.mul_add, Nat.mul_one, Nat.add_sub_cancel, hps]
        ring
      have harith2 : 2 ^ e * m + 2 ^ e = 2 ^ (e + 1) * m2 + 2 ^ (e + 1) := by
        rw [hm, hps]
        ring
      rw [stackSpec_cons x (2 ^ e * m) (by positivity), merge_go]
      rw [dif_pos (by
        simp only [List.length_cons, stackSpec_length]
        rw [show 2 ^ e * m + 2 ^ e = 2 ^ e * (m + 1) from by ring, popcount_pow_mul]
        rw [popcount_sub_lowbit (2 ^ e * m) (by positivity), popcount_pow_mul]
        rw [hm, show 2 * m2 + 1 + 1 = 2 * (m2 + 1) from by ring, popcount_two_mul,
          popcount_two_mul_add_one]
        have := popcount_succ_le m2
        omega)]
      dsimp only
      have hAlen : ((x.drop (1024 * (2 ^ e * m - 2 ^ e))).take (1024 * 2 ^ e)).length =
          1024 * 2 ^ e := by
        apply slice_length
        omega
      have hBlen : ((x.drop (1024 * (2 ^ e * m))).take (1024 * 2 ^ e)).length =
          1024 * 2 ^ e := by
        apply slice_length
        omega
      have hAB : (x.drop (1024 * (2 ^ e * m - 2 ^ e))).take (1024 * 2 ^ e) ++
            (x.drop (1024 * (2 ^ e * m))).take (1024 * 2 ^ e) =
          (x.drop (1024 * (2 ^ e * m - 2 ^ e))).take (1024 * 2 ^ (e + 1)) := by
        rw [show (1024 : Nat) * 2 ^ (e + 1) = 1024 * 2 ^ e + 1024 * 2 ^ e from by
          rw [pow_succ]; ring]
        rw [slice_split]
        congr 3
        omega
      have hidx : 2 ^ e * m - 2 ^ e + 2 ^ e = 2 ^ e * m := by omega
      have hcomb := parent_combine
        ((x.drop (1024 * (2 ^ e * m - 2 ^ e))).take (1024 * 2 ^ e))
        ((x.drop (1024 * (2 ^ e * m))).take (1024 * 2 ^ e))
        (2 ^ e * m - 2 ^ e) e NOT_ROOT hAlen (by rw [hBlen]; omega)
        (by rw [hBlen])
      rw [hidx, hAB] at hcomb
      rw [hlow, hcomb]
      rw [harith1, harith2]
      have hfull2 : 1024 * (2 ^ (e + 1) * m2 + 2 ^ (e + 1)) ≤ x.length := by
        rw [← harith2]
        omega
      exact merge_spec x (e + 1) m2 hfull2
termination_by m
decreasing_by omega

/-! ## The end-of-input merge computes the root CV -/

theorem slice_glue (x : List Nat) (s n : Nat) :
    (x.drop s).take n ++ x.drop (s + n) = x.drop s := by
  have h := List.take_append_drop n (x.drop s)
  rw [List.drop_drop] at h
  exact h

theorem lowbit_pow_mul (a j : Nat) (hj : 0 < j) :
    lowbit (2 ^ a * j) = 2 ^ a * lowbit j := by
  induction a with
  | zero => simp
  | succ a ih =>
    rw [show 2 ^ (a + 1) * j = 2 * (2 ^ a * j) from by ring,
      lowbit_two_mul _ (by positivity), ih, pow_succ]
    ring

theorem finalize_go_cons (s new : List Nat) (rest : List (List Nat))
    (h : rest ≠ []) :
    finalize_go (s :: rest) new =
      finalize_go rest (parent_chaining_value (s ++ new) NOT_ROOT) := by
  match rest, h with
  | r :: rs, _ => rfl

theorem finalize_spec (x : List Nat) (k : Nat) (hk : 0 < k)
    (h1 : 1024 * k < x.length) (h2 : x.length ≤ 1024 * k + 1024 * lowbit k) :
    finalize_go (stackSpec x k) (subtree_cv (x.drop (1024 * k)) k NOT_ROOT) =
      subtree_cv x 0 IS_ROOT := by
  obtain ⟨e, j, hj, hl⟩ := lowbit_decomp k hk
  have hp1 : (1:Nat) ≤ 2 ^ e := Nat.one_le_two_pow
  have hle : 2 ^ e ≤ k := by
    rw [hj]; exact Nat.le_mul_of_pos_right _ (by omega)
  have h2' : x.length ≤ 1024 * k + 1024 * 2 ^ e := by rw [hl] at h2; exact h2
  have hk' : k - 2 ^ e = 2 ^ (e + 1) * j := by
    rw [hj, Nat.mul_add, Nat.mul_one, Nat.add_sub_cancel, pow_succ]
    ring
  have hBlen1 : 1 ≤ (x.drop (1024 * k)).length := by
    rw [List.length_drop]; omega
  have hBlen2 : (x.drop (1024 * k)).length ≤ 1024 * 2 ^ e := by
    rw [List.length_drop]; omega
  have hAlen : ((x.drop (1024 * (k - 2 ^ e))).take (1024 * 2 ^ e)).length =
      1024 * 2 ^ e := by
    apply slice_length; omega
  have hglue : (x.drop (1024 * (k - 2 ^ e))).take (1024 * 2 ^ e) ++
      x.drop (1024 * k) = x.drop (1024 * (k - 2 ^ e)) := by
    have := slice_glue x (1024 * (k - 2 ^ e)) (1024 * 2 ^ e)
    rw [show 1024 * (k - 2 ^ e) + 1024 * 2 ^ e = 1024 * k from by
      rw [← Nat.mul_add]; congr 1; omega] at this
    exact this
  have hidx : k - 2 ^ e + 2 ^ e = k := by omega
  have hcomb := parent_combine
    ((x.drop (1024 * (k - 2 ^ e))).take (1024 * 2 ^ e))
    (x.drop (1024 * k)) (k - 2 ^ e) e
  rcases Nat.eq_zero_or_pos j with hj0 | hjpos
  · -- single stack entry: the final combine carries IS_ROOT
    have hke : k = 2 ^ e := by rw [hj, hj0]; ring
    have h0 : k - 2 ^ e = 0 := by omega
    have hc := hcomb IS_ROOT hAlen hBlen1 hBlen2
    rw [hidx, hglue, h0] at hc
    simp only [Nat.mul_zero, List.drop_zero] at hc
    rw [stackSpec_cons x k hk, hl, h0]
    simp only [Nat.mul_zero, List.drop_zero]
    rw [stackSpec]
    rw [show finalize_go [subtree_cv (x.take (1024 * 2 ^ e)) 0 NOT_ROOT]
        (subtree_cv (x.drop (1024 * k)) k NOT_ROOT) =
      parent_chaining_value (subtree_cv (x.take (1024 * 2 ^ e)) 0 NOT_ROOT ++
        subtree_cv (x.drop (1024 * k)) k NOT_ROOT) IS_ROOT from rfl]
    rw [hc]
  · -- deeper stack: combine under NOT_ROOT and recurse
    have hkpos' : 0 < k - 2 ^ e := by
      rw [hk']; positivity
    rw [stackSpec_cons x k hk, hl]
    have hcons : stackSpec x (k - 2 ^ e) ≠ [] := by
      have hlen : (stackSpec x (k - 2 ^ e)).length = popcount (k - 2 ^ e) :=
        stackSpec_length x _
      have hpc : 0 < popcount (k - 2 ^ e) := popcount_pos _ hkpos'
      intro hnil
      rw [hnil] at hlen
      simp at hlen
      omega
    rw [finalize_go_cons _ _ _ hcons]
    have hc := hcomb NOT_ROOT hAlen hBlen1 hBlen2
    rw [hidx, hglue] at hc
    rw [hc]
    have hlow' : lowbit (k - 2 ^ e) = 2 ^ (e + 1) * lowbit j := by
      rw [hk']
      exact lowbit_pow_mul (e + 1) j hjpos
    have hlj : 1 ≤ lowbit j := lowbit_pos j hjpos
    have hps : (2:Nat) ^ (e + 1) = 2 * 2 ^ e := by rw [pow_succ]; ring
    have hlbound : 1024 * 2 ^ (e + 1) ≤ 1024 * lowbit (k - 2 ^ e) := by
      rw [hlow']
      have h3 : 2 ^ (e + 1) ≤ 2 ^ (e + 1) * lowbit j :=
        Nat.le_mul_of_pos_right _ (by omega)
      omega
    exact finalize_spec x (k - 2 ^ e) hkpos' (by omega) (by omega)
termination_by k
decreasing_by omega

/-! ## The read loop of the streaming hasher -/

theorem bao_hash_loop_spec (x rem buf : List Nat) (chunks : Nat)
    (hinv : buf ++ rem = x.drop (1024 * chunks))
    (hbuf : buf.length ≤ 1024)
    (hfull : rem ≠ [] → buf.length = 1024 ∨ (chunks = 0 ∧ buf = []))
    (hne : 0 < chunks → buf ≠ []) :
    bao_hash_loop buf rem chunks (stackSpec x chunks) = subtree_cv x 0 IS_ROOT := by
  have hlen : buf.length + rem.length = x.length - 1024 * chunks := by
    have := congrArg List.length hinv
    simpa [List.length_append, List.length_drop] using this
  rw [bao_hash_loop]
  by_cases hrem : rem = []
  · subst hrem
    rw [dif_pos rfl, bao_hash_finalize]
    rw [List.append_nil] at hinv
    rcases Nat.eq_zero_or_pos chunks with h0 | hpos
    · subst h0
      rw [if_pos rfl]
      rw [Nat.mul_zero, List.drop_zero] at hinv
      rw [hinv] at hbuf ⊢
      exact (subtree_cv_leaf x 0 IS_ROOT hbuf).symm
    · rw [if_neg (by omega)]
      have hbne : buf ≠ [] := hne hpos
      have hbl : 0 < buf.length := List.length_pos.mpr hbne
      have hxk : 1024 * chunks < x.length := by
        simp only [List.length_nil] at hlen
        omega
      have hlow := lowbit_pos chunks hpos
      rw [hinv] at hbuf ⊢
      rw [← subtree_cv_leaf _ _ _ hbuf]
      exact finalize_spec x chunks hpos hxk (by
        rw [List.length_drop] at hbuf
        omega)
  · rw [dif_neg hrem]
    have hremlen : 0 < rem.length := List.length_pos.mpr hrem
    rcases hfull hrem with hb | ⟨h0, hb⟩
    · -- a full chunk is hashed and pushed into the stack
      rw [if_pos (by simp only [CHUNK_SIZE]; omega)]
      simp only [CHUNK_SIZE]
      have htake : buf.take 1024 = buf := by
        rw [← hb]; exact List.take_length buf
      have hbuf_eq : buf = (x.drop (1024 * chunks)).take 1024 := by
        rw [← hinv, take_append_exact buf rem _ hb.symm]
      have hchunkfull : 1024 * (chunks + 1) ≤ x.length := by omega
      have hnew : chunk_chaining_value (buf.take 1024) chunks NOT_ROOT =
          subtree_cv ((x.drop (1024 * (2 ^ 0 * chunks))).take (1024 * 2 ^ 0))
            (2 ^ 0 * chunks) NOT_ROOT := by
        rw [htake, hbuf_eq]
        simp only [pow_zero, Nat.one_mul, Nat.mul_one]
        exact (subtree_cv_leaf _ _ _ (by
          rw [List.length_take]
          omega)).symm
      rw [hnew]
      rw [show stackSpec x chunks = stackSpec x (2 ^ 0 * chunks) from by
        simp]
      rw [show popcount (chunks + 1) = popcount (2 ^ 0 * chunks + 2 ^ 0) from by
        simp]
      rw [merge_spec x 0 chunks (by simpa using hchunkfull)]
      simp only [pow_zero, Nat.one_mul]
      have hdropbuf : buf.drop 1024 = [] := by
        rw [← hb]; exact List.drop_length buf
      rw [hdropbuf, List.nil_append]
      have hinv2 : rem.take 1024 ++ rem.drop 1024 = x.drop (1024 * (chunks + 1)) := by
        rw [List.take_append_drop]
        have : x.drop (1024 * (chunks + 1)) = (x.drop (1024 * chunks)).drop 1024 := by
          rw [List.drop_drop]
          congr 1
        rw [this, ← hinv, drop_append_exact buf rem _ hb.symm]
      exact bao_hash_loop_spec x (rem.drop 1024) (rem.take 1024) (chunks + 1) hinv2
        (by rw [List.length_take]; omega)
        (fun hr2 => by
          left
          have : 1024 < rem.length := by
            by_contra hcon
            apply hr2
            rw [← List.length_eq_zero]
            rw [List.length_drop]
            omega
          rw [List.length_take]
          omega)
        (fun _ => List.length_pos.mp (by rw [List.length_take]; omega))
    · -- the buffer is still filling: first read of the stream
      subst h0
      rw [if_neg (by rw [hb]; simp [CHUNK_SIZE])]
      subst hb
      simp only [List.nil_append] at hinv ⊢
      have hinv2 : rem.take 1024 ++ rem.drop 1024 = x.drop (1024 * 0) := by
        rw [List.take_append_drop]; exact hinv
      exact bao_hash_loop_spec x (rem.drop 1024) (rem.take 1024) 0 hinv2
        (by rw [List.length_take]; omega)
        (fun hr2 => by
          left
          have : 1024 < rem.length := by
            by_contra hcon
            apply hr2
            rw [← List.length_eq_zero, List.length_drop]
            omega
          rw [List.length_take]
          omega)
        (by omega)
termination_by rem.length
decreasing_by
  · rw [List.length_drop]; omega
  · rw [List.length_drop]; omega

theorem bao_hash_eq_subtree_cv (x : List Nat) :
    bao_hash x = subtree_cv x 0 IS_ROOT := by
  rw [bao_hash]
  have hs : stackSpec x 0 = [] := by rw [stackSpec]
  have := bao_hash_loop_spec x x [] 0 (by simp) (by simp)
    (fun _ => Or.inr ⟨rfl, rfl⟩) (by simp)
  rw [hs] at this
  exact this

/-! ## Claim C2: hash agreement -/

/-- C2: the root hash returned by the buffered recursive encoder (in both
combined and outboard modes) equals the output of the iterative streaming
hasher on the same bytes. -/
theorem C2_hash_agreement (x : List Nat) :
    (bao_encode x false).2 = bao_hash x ∧ (bao_encode x true).2 = bao_hash x := by
  rw [bao_hash_eq_subtree_cv]
  constructor
  · rfl
  · unfold bao_encode
    exact congrArg Prod.fst (encode_recurse_cv_outboard x 0 true IS_ROOT)

/-! ## Slice producer: traversal lemmas -/

theorem left_len_mod (L : Nat) (hL : 1024 < L) : left_len L % 1024 = 0 := by
  rw [left_len_eq L hL]
  exact Nat.mul_mod_right 1024 _

theorem encoded_subtree_size_false (L : Nat) :
    encoded_subtree_size L false = encoded_subtree_size L true + L := by
  simp [encoded_subtree_size]

theorem subtree_take_left (x : List Nat) (s L : Nat) (hL : 1024 < L) :
    ((x.drop s).take L).take (left_len L) = (x.drop s).take (left_len L) := by
  rw [List.take_take]
  congr 1
  have := left_len_lt L hL
  omega

theorem subtree_drop_left (x : List Nat) (s L : Nat) :
    ((x.drop s).take L).drop (left_len L) =
      (x.drop (s + left_len L)).take (L - left_len L) := by
  rw [List.drop_take, List.drop_drop]

theorem subtree_right_index (s L : Nat) (hL : 1024 < L) (hs : s % 1024 = 0) :
    s / 1024 + count_chunks (left_len L) = (s + left_len L) / 1024 := by
  have h1 := left_len_mod L hL
  have h2 := left_len_ge L hL
  have h3 : count_chunks (left_len L) = (left_len L - 1) / 1024 + 1 :=
    count_chunks_eq_succ _ (by omega)
  omega

theorem slice_recurse_before (input : List Nat) (ss se s L : Nat)
    (h : s + L ≤ ss) :
    slice_recurse input ss se s L =
      some (input.drop (encoded_subtree_size L true + L), []) := by
  rw [slice_recurse, if_pos h]

theorem slice_recurse_after (input : List Nat) (ss se s L : Nat)
    (h1 : ¬ s + L ≤ ss) (h2 : se ≤ s) :
    slice_recurse input ss se s L = some (input, []) := by
  rw [slice_recurse, if_neg h1]
  rw [if_pos h2]

theorem slice_recurse_leaf (input : List Nat) (ss se s L : Nat)
    (h1 : ¬ s + L ≤ ss) (h2 : ¬ se ≤ s) (h3 : L ≤ 1024) :
    slice_recurse input ss se s L =
      if input.length < L then none
      else some (input.drop L, input.take L) := by
  rw [slice_recurse, if_neg h1, if_neg h2, dif_pos (by simpa [CHUNK_SIZE] using h3)]

theorem slice_recurse_node (input : List Nat) (ss se s L : Nat)
    (h1 : ¬ s + L ≤ ss) (h2 : ¬ se ≤ s) (h3 : 1024 < L) :
    slice_recurse input ss se s L =
      if input.length < 64 then none
      else
        match slice_recurse (input.drop 64) ss se s (left_len L) with
        | none => none
        | some (in1, out1) =>
          match slice_recurse in1 ss se (s + left_len L) (L - left_len L) with
          | none => none
          | some (in2, out2) => some (in2, input.take 64 ++ out1 ++ out2) := by
  rw [slice_recurse, if_neg h1, if_neg h2,
    dif_neg (by simp only [CHUNK_SIZE]; omega)]
  simp only [PARENT_SIZE, HASH_SIZE]

/-! ## Unfolding lemmas for sliceOut -/

theorem sliceOut_before (x : List Nat) (ss se s L : Nat) (h : s + L ≤ ss) :
    sliceOut x ss se s L = [] := by
  rw [sliceOut, if_pos h]

theorem sliceOut_after (x : List Nat) (ss se s L : Nat)
    (h1 : ¬ s + L ≤ ss) (h2 : se ≤ s) :
    sliceOut x ss se s L = [] := by
  rw [sliceOut, if_neg h1]
  rw [if_pos h2]

theorem sliceOut_leaf (x : List Nat) (ss se s L : Nat)
    (h1 : ¬ s + L ≤ ss) (h2 : ¬ se ≤ s) (h3 : L ≤ 1024) :
    sliceOut x ss se s L = (x.drop s).take L := by
  rw [sliceOut, if_neg h1, if_neg h2, dif_pos h3]

theorem sliceOut_node (x : List Nat) (ss se s L : Nat)
    (h1 : ¬ s + L ≤ ss) (h2 : ¬ se ≤ s) (h3 : 1024 < L) :
    sliceOut x ss se s L =
      subtree_cv ((x.drop s).take (left_len L)) (s / 1024) NOT_ROOT ++
      subtree_cv ((x.drop (s + left_len L)).take (L - left_len L))
        ((s + left_len L) / 1024) NOT_ROOT ++
      sliceOut x ss se s (left_len L) ++
      sliceOut x ss se (s + left_len L) (L - left_len L) := by
  rw [sliceOut, if_neg h1, if_neg h2, dif_neg (by omega)]

/-! ## The encoding of a subtree in terms of byte ranges of the input -/

theorem encode_subtree_enc (x : List Nat) (s L : Nat) (f : Finalization)
    (hL : 1024 < L) (hs : s % 1024 = 0) (hsl : s + L ≤ x.length) :
    (encode_recurse ((x.drop s).take L) (s / 1024) false f).1 =
      (subtree_cv ((x.drop s).take (left_len L)) (s / 1024) NOT_ROOT ++
       subtree_cv ((x.drop (s + left_len L)).take (L - left_len L))
         ((s + left_len L) / 1024) NOT_ROOT) ++
      ((encode_recurse ((x.drop s).take (left_len L)) (s / 1024) false NOT_ROOT).1 ++
       (encode_recurse ((x.drop (s + left_len L)).take (L - left_len L))
         ((s + left_len L) / 1024) false NOT_ROOT).1) := by
  have hBlen : ((x.drop s).take L).length = L := slice_length x s L hsl
  have hlt : 1024 < ((x.drop s).take L).length := by rw [hBlen]; exact hL
  have hllen : left_len (((x.drop s).take L).length) = left_len L := by rw [hBlen]
  have hlleft : ((x.drop s).take (left_len L)).length = left_len L :=
    slice_length x s _ (by have := left_len_lt L hL; omega)
  simp only [encode_recurse_node _ _ _ _ hlt, hllen,
    subtree_take_left x s L hL, subtree_drop_left x s L,
    encode_recurse_index, hlleft, subtree_right_index s L hL hs, subtree_cv]
  simp [List.append_assoc]

theorem subtree_cv_node (x : List Nat) (s L : Nat) (f : Finalization)
    (hL : 1024 < L) (hs : s % 1024 = 0) (hsl : s + L ≤ x.length) :
    subtree_cv ((x.drop s).take L) (s / 1024) f =
      parent_chaining_value
        (subtree_cv ((x.drop s).take (left_len L)) (s / 1024) NOT_ROOT ++
         subtree_cv ((x.drop (s + left_len L)).take (L - left_len L))
           ((s + left_len L) / 1024) NOT_ROOT) f := by
  have hBlen : ((x.drop s).take L).length = L := slice_length x s L hsl
  have hlt : 1024 < ((x.drop s).take L).length := by rw [hBlen]; exact hL
  have hllen : left_len (((x.drop s).take L).length) = left_len L := by rw [hBlen]
  have hlleft : ((x.drop s).take (left_len L)).length = left_len L :=
    slice_length x s _ (by have := left_len_lt L hL; omega)
  conv_lhs => rw [subtree_cv, encode_recurse_node _ _ _ _ hlt]
  simp only [hllen, subtree_take_left x s L hL, subtree_drop_left x s L,
    encode_recurse_index, hlleft, subtree_right_index s L hL hs, subtree_cv]

/-! ## The slice producer extracts exactly the sliceOut bytes -/

theorem slice_recurse_spec (x : List Nat) (ss se s L : Nat) (f : Finalization)
    (rest : List Nat) (hs : s % 1024 = 0) (hsl : s + L ≤ x.length) (hse : ss < se) :
    ∃ str,
      slice_recurse ((encode_recurse ((x.drop s).take L) (s / 1024) false f).1 ++ rest)
        ss se s L = some (str, sliceOut x ss se s L) ∧
      (se ≤ s →
        str = (encode_recurse ((x.drop s).take L) (s / 1024) false f).1 ++ rest) ∧
      (s + L < se → str = rest) := by
  by_cases ha : s + L ≤ ss
  · -- entirely before the slice: seek past the whole subtree
    refine ⟨rest, ?_, fun hcon => absurd hcon (by omega), fun _ => rfl⟩
    rw [slice_recurse_before _ _ _ _ _ ha, sliceOut_before _ _ _ _ _ ha,
      drop_append_exact _ _ _ (by
        rw [encode_recurse_size _ (s / 1024) false f, slice_length x s L hsl,
          encoded_subtree_size_false])]
  · by_cases hb : se ≤ s
    · -- entirely after the slice: nothing read, nothing emitted
      refine ⟨_, ?_, fun _ => rfl, fun hcon => absurd hb (by omega)⟩
      rw [slice_recurse_after _ _ _ _ _ ha hb, sliceOut_after _ _ _ _ _ ha hb]
    · by_cases hleaf : L ≤ 1024
      · -- intersecting leaf: emit the chunk bytes
        refine ⟨rest, ?_, fun hcon => absurd hcon hb, fun _ => rfl⟩
        rw [slice_recurse_leaf _ _ _ _ _ ha hb hleaf,
          sliceOut_leaf _ _ _ _ _ ha hb hleaf]
        rw [encode_recurse_leaf _ _ _ _ (by rw [slice_length x s L hsl]; exact hleaf)]
        simp only [if_false, Bool.false_eq_true, ite_false]
        rw [if_neg (by
          rw [List.length_append, slice_length x s L hsl]
          omega)]
        rw [take_append_exact _ _ _ (slice_length x s L hsl).symm,
          drop_append_exact _ _ _ (slice_length x s L hsl).symm]
      · -- intersecting internal node: emit the parent and both children
        push_neg at hleaf
        have hlt := left_len_lt L hleaf
        have hpos := left_len_pos L hleaf
        have hmod := left_len_mod L hleaf
        have hsmod : (s + left_len L) % 1024 = 0 := by omega
        have hcl : (subtree_cv ((x.drop s).take (left_len L)) (s / 1024)
            NOT_ROOT).length = 32 := encode_recurse_cv_length _ _ _ _
        have hcr : (subtree_cv ((x.drop (s + left_len L)).take (L - left_len L))
            ((s + left_len L) / 1024) NOT_ROOT).length = 32 :=
          encode_recurse_cv_length _ _ _ _
        rw [slice_recurse_node _ _ _ _ _ ha hb hleaf,
          sliceOut_node _ _ _ _ _ ha hb hleaf]
        rw [encode_subtree_enc x s L f hleaf hs hsl]
        set cvl := subtree_cv ((x.drop s).take (left_len L)) (s / 1024) NOT_ROOT
        set cvr := subtree_cv ((x.drop (s + left_len L)).take (L - left_len L))
          ((s + left_len L) / 1024) NOT_ROOT
        set encl := (encode_recurse ((x.drop s).take (left_len L)) (s / 1024)
          false NOT_ROOT).1
        set encr := (encode_recurse ((x.drop (s + left_len L)).take (L - left_len L))
          ((s + left_len L) / 1024) false NOT_ROOT).1
        have hnode : (cvl ++ cvr).length = 64 := by
          rw [List.length_append, hcl, hcr]
        have hassoc : (cvl ++ cvr) ++ (encl ++ encr) ++ rest =
            (cvl ++ cvr) ++ (encl ++ (encr ++ rest)) := by
          simp [List.append_assoc]
        rw [hassoc]
        rw [if_neg (by
          simp only [List.length_append]
          simp only [List.length_append] at hnode
          omega)]
        rw [take_append_exact _ _ _ hnode.symm, drop_append_exact _ _ _ hnode.symm]
        obtain ⟨str1, hrec1, hafter1, hpast1⟩ := slice_recurse_spec x ss se s
          (left_len L) NOT_ROOT (encr ++ rest) hs (by omega) hse
        rw [hrec1]
        dsimp only
        by_cases hre : se ≤ s + left_len L
        · -- the right child lies entirely after the slice
          rw [slice_recurse_after str1 ss se (s + left_len L) (L - left_len L)
            (by omega) hre]
          dsimp only
          refine ⟨str1, ?_, fun hcon => absurd hcon hb,
            fun hcon => absurd hre (by omega)⟩
          rw [sliceOut_after x ss se (s + left_len L) (L - left_len L) (by omega) hre]
          try simp [List.append_assoc]
        · push_neg at hre
          have hstr1 : str1 = encr ++ rest := hpast1 (by omega)
          subst hstr1
          obtain ⟨str2, hrec2, hafter2, hpast2⟩ := slice_recurse_spec x ss se
            (s + left_len L) (L - left_len L) NOT_ROOT rest hsmod (by omega) hse
          rw [hrec2]
          dsimp only
          refine ⟨str2, ?_, fun hcon => absurd hcon hb,
            fun hcon => hpast2 (by omega)⟩
          simp [List.append_assoc]
termination_by L
decreasing_by
  · exact left_len_lt L (by omega)
  · omega

/-! ## Slice verifier: traversal lemmas -/

theorem decode_slice_recurse_before (input : List Nat)
    (cl ss se s L : Nat) (skip : Bool) (cv : List Nat) (f : Finalization)
    (h : s + L ≤ ss ∧ 0 < cl) :
    decode_slice_recurse input cl ss se skip s L cv f = some (input, []) := by
  rw [decode_slice_recurse, if_pos h]

theorem decode_slice_recurse_after (input : List Nat)
    (cl ss se s L : Nat) (skip : Bool) (cv : List Nat) (f : Finalization)
    (h1 : ¬ (s + L ≤ ss ∧ 0 < cl)) (h2 : se ≤ s ∧ 0 < cl) :
    decode_slice_recurse input cl ss se skip s L cv f = some (input, []) := by
  rw [decode_slice_recurse, if_neg h1, if_pos h2]

theorem decode_slice_recurse_leaf (input : List Nat)
    (cl ss se s L : Nat) (skip : Bool) (cv : List Nat) (f : Finalization)
    (h1 : ¬ (s + L ≤ ss ∧ 0 < cl)) (h2 : ¬ (se ≤ s ∧ 0 < cl)) (h3 : L ≤ 1024) :
    decode_slice_recurse input cl ss se skip s L cv f =
      if input.length < L then none
      else if chunk_chaining_value (input.take L) (s / 1024) f = cv then
        some (input.drop L,
          if skip then []
          else ((input.take L).take (max 0 (min L (se - s)))).drop
            (max 0 (min L (ss - s))))
      else none := by
  rw [decode_slice_recurse, if_neg h1, if_neg h2,
    dif_pos (by simpa [CHUNK_SIZE] using h3)]
  simp only [CHUNK_SIZE, verify_chunk]
  simp

theorem decode_slice_recurse_node (input : List Nat)
    (cl ss se s L : Nat) (skip : Bool) (cv : List Nat) (f : Finalization)
    (h1 : ¬ (s + L ≤ ss ∧ 0 < cl)) (h2 : ¬ (se ≤ s ∧ 0 < cl)) (h3 : 1024 < L) :
    decode_slice_recurse input cl ss se skip s L cv f =
      if input.length < 64 then none
      else if parent_chaining_value (input.take 64) f = cv then
        match decode_slice_recurse (input.drop 64) cl ss se skip s (left_len L)
            ((input.take 64).take 32) NOT_ROOT with
        | none => none
        | some (in1, out1) =>
          match decode_slice_recurse in1 cl ss se skip (s + left_len L)
              (L - left_len L) ((input.take 64).drop 32) NOT_ROOT with
          | none => none
          | some (in2, out2) => some (in2, out1 ++ out2)
      else none := by
  rw [decode_slice_recurse, if_neg h1, if_neg h2,
    dif_neg (by simp only [CHUNK_SIZE]; omega)]
  simp only [PARENT_SIZE, HASH_SIZE, verify_parent]
  simp

/-! ## Concatenating verified output ranges -/

theorem interval_concat (x : List Nat) (a b c : Nat) (hab : a ≤ b) (hbc : b ≤ c) :
    (x.drop a).take (b - a) ++ (x.drop b).take (c - b) = (x.drop a).take (c - a) := by
  have h := slice_split x a (b - a) (c - b)
  rw [show a + (b - a) = b from by omega] at h
  rw [show b - a + (c - b) = c - a from by omega] at h
  exact h.symm

theorem out_concat (x : List Nat) (ss se s mid L : Nat)
    (h1 : s ≤ mid) (h2 : mid ≤ s + L) (h3 : mid < se) :
    (x.drop (max s ss)).take (min mid se - max s ss) ++
      (x.drop (max mid ss)).take (min (s + L) se - max mid ss) =
    (x.drop (max s ss)).take (min (s + L) se - max s ss) := by
  by_cases hcase : ss ≤ mid
  · rw [show max mid ss = mid from by omega,
      show min mid se - max s ss = mid - max s ss from by omega]
    exact interval_concat x (max s ss) mid (min (s + L) se) (by omega) (by omega)
  · rw [show min mid se - max s ss = 0 from by omega, List.take_zero,
      List.nil_append, show max mid ss = max s ss from by omega]

theorem leaf_out_value (x : List Nat) (ss se s L : Nat)
    (hse1 : s < se) (hint : ss < s + L) :
    (((x.drop s).take L).take (max 0 (min L (se - s)))).drop
        (max 0 (min L (ss - s))) =
      (x.drop (max s ss)).take (min (s + L) se - max s ss) := by
  rw [Nat.zero_max, Nat.zero_max, List.take_take,
    show min (min L (se - s)) L = min L (se - s) from by omega,
    List.drop_take, List.drop_drop]
  congr 1
  · omega
  · congr 1
    omega

/-- The slice verifier consumes exactly the producer's bytes for a
subtree, succeeds, and emits the requested intersection (nothing when
`skip_output` is set). -/
theorem decode_slice_recurse_spec (x : List Nat) (ss se s L : Nat) (skip : Bool)
    (f : Finalization) (rest : List Nat)
    (hs : s % 1024 = 0) (hsl : s + L ≤ x.length) (hse : ss < se)
    (hx : 0 < x.length) :
    ∃ str,
      decode_slice_recurse (sliceOut x ss se s L ++ rest) x.length ss se skip s L
        (subtree_cv ((x.drop s).take L) (s / 1024) f) f =
        some (str, if skip then []
          else (x.drop (max s ss)).take (min (s + L) se - max s ss)) ∧
      (se ≤ s → str = sliceOut x ss se s L ++ rest) ∧
      (s + L < se → str = rest) := by
  by_cases ha : s + L ≤ ss
  · refine ⟨rest, ?_, fun hcon => absurd hcon (by omega), fun _ => rfl⟩
    rw [sliceOut_before _ _ _ _ _ ha, List.nil_append,
      decode_slice_recurse_before _ _ _ _ _ _ _ _ _ ⟨ha, hx⟩,
      show min (s + L) se - max s ss = 0 from by omega, List.take_zero, ite_self]
  · by_cases hb : se ≤ s
    · refine ⟨sliceOut x ss se s L ++ rest, ?_, fun _ => rfl,
        fun hcon => absurd hb (by omega)⟩
      rw [decode_slice_recurse_after _ _ _ _ _ _ _ _ _ (fun hc => ha hc.1) ⟨hb, hx⟩,
        show min (s + L) se - max s ss = 0 from by omega, List.take_zero, ite_self]
    · push_neg at hb
      by_cases hleaf : L ≤ 1024
      · -- intersecting leaf: verify the chunk and emit the clamped range
        refine ⟨rest, ?_, fun hcon => absurd hcon (by omega), fun _ => rfl⟩
        rw [sliceOut_leaf _ _ _ _ _ ha (by omega) hleaf]
        rw [decode_slice_recurse_leaf _ _ _ _ _ _ _ _ _ (fun hc => ha hc.1)
          (fun hc => absurd hc.1 (by omega)) hleaf]
        rw [if_neg (by
          rw [List.length_append, slice_length x s L hsl]
          omega)]
        rw [take_append_exact _ _ _ (slice_length x s L hsl).symm,
          drop_append_exact _ _ _ (slice_length x s L hsl).symm]
        rw [if_pos (subtree_cv_leaf _ _ _ (by
          rw [slice_length x s L hsl]; exact hleaf)).symm]
        rw [leaf_out_value x ss se s L hb (by omega)]
      · -- intersecting internal node: verify the parent and recurse
        push_neg at hleaf
        have hlt := left_len_lt L hleaf
        have hpos := left_len_pos L hleaf
        have hmod := left_len_mod L hleaf
        have hsmod : (s + left_len L) % 1024 = 0 := by omega
        rw [sliceOut_node _ _ _ _ _ ha (by omega) hleaf]
        set cvl := subtree_cv ((x.drop s).take (left_len L)) (s / 1024) NOT_ROOT
          with hcvl
        set cvr := subtree_cv ((x.drop (s + left_len L)).take (L - left_len L))
          ((s + left_len L) / 1024) NOT_ROOT with hcvr
        set outl := sliceOut x ss se s (left_len L) with houtl
        set outr := sliceOut x ss se (s + left_len L) (L - left_len L) with houtr
        have hcl : cvl.length = 32 := encode_recurse_cv_length _ _ _ _
        have hcr : cvr.length = 32 := encode_recurse_cv_length _ _ _ _
        have hnode : (cvl ++ cvr).length = 64 := by
          rw [List.length_append, hcl, hcr]
        rw [decode_slice_recurse_node _ _ _ _ _ _ _ _ _ (fun hc => ha hc.1)
          (fun hc => absurd hc.1 (by omega)) hleaf]
        have hassoc : cvl ++ cvr ++ outl ++ outr ++ rest =
            (cvl ++ cvr) ++ (outl ++ (outr ++ rest)) := by
          simp [List.append_assoc]
        rw [hassoc]
        rw [if_neg (by
          simp only [List.length_append]
          simp only [List.length_append] at hnode
          omega)]
        rw [take_append_exact _ _ _ hnode.symm, drop_append_exact _ _ _ hnode.symm]
        rw [if_pos (subtree_cv_node x s L f hleaf hs hsl).symm]
        rw [take_append_exact cvl cvr _ hcl.symm, drop_append_exact cvl cvr _ hcl.symm]
        obtain ⟨str1, hrec1, haft1, hpast1⟩ := decode_slice_recurse_spec x ss se s
          (left_len L) skip NOT_ROOT (outr ++ rest) hs (by omega) hse hx
        rw [← houtl, ← hcvl] at hrec1
        rw [hrec1]
        dsimp only
        by_cases hre : se ≤ s + left_len L
        · rw [decode_slice_recurse_after str1 _ _ _ _ _ _ _ _
            (fun hc => ha (by omega)) ⟨hre, hx⟩]
          dsimp only
          refine ⟨str1, ?_, fun hcon => absurd hcon (by omega),
            fun hcon => absurd hre (by omega)⟩
          have hmin : min (s + left_len L) se = min (s + L) se := by omega
          cases skip
          · simp only [Bool.false_eq_true, ite_false, List.append_nil, hmin]
          · simp
        · push_neg at hre
          have hstr1 : str1 = outr ++ rest := hpast1 (by omega)
          subst hstr1
          obtain ⟨str2, hrec2, haft2, hpast2⟩ := decode_slice_recurse_spec x ss se
            (s + left_len L) (L - left_len L) skip NOT_ROOT rest hsmod
            (by omega) hse hx
          rw [← houtr, ← hcvr] at hrec2
          rw [hrec2]
          dsimp only
          refine ⟨str2, ?_, fun hcon => absurd hcon (by omega),
            fun hcon => hpast2 (by omega)⟩
          have harr : s + left_len L + (L - left_len L) = s + L := by omega
          rw [harr] at *
          cases skip
          · simp only [Bool.false_eq_true, ite_false]
            rw [out_concat x ss se s (s + left_len L) L (by omega) (by omega)
              (by omega)]
          · simp
termination_by L
decreasing_by
  · exact left_len_lt L (by omega)
  · omega

/-! ## Top-level slice round-trip -/

/-- Producing a slice from a combined encoding and verifying it against
the streaming root hash succeeds for every requested range, emitting the
in-range bytes (or nothing in the degenerate clamped/zero-length cases,
where `skip_output` suppresses the output). -/
theorem slice_roundtrip_general (x : List Nat) (start len : Nat)
    (hlen : x.length < 2 ^ 64) :
    ∃ out, bao_slice (bao_encode x false).1 start len =
        some (encode_len x.length ++ out) ∧
      bao_decode_slice (encode_len x.length ++ out) (bao_hash x) start len =
        some (if len = 0 ∨ x.length ≤ start then []
          else (x.drop start).take (min x.length (start + len) - start)) := by
  have hhl : (encode_len x.length).length = 8 := encode_len_length x.length
  set enc := (encode_recurse x 0 false IS_ROOT).1 with henc
  have hstream : (bao_encode x false).1 = encode_len x.length ++ enc := rfl
  have htake : (encode_len x.length ++ enc).take HEADER_SIZE =
      encode_len x.length := take_append_exact _ _ _ (by rw [hhl]; rfl)
  have hdrop : (encode_len x.length ++ enc).drop HEADER_SIZE = enc :=
    drop_append_exact _ _ _ (by rw [hhl]; rfl)
  set len1 := if len = 0 then 1 else len with hlen1
  set ss := (if x.length ≤ start then (if 0 < x.length then x.length - 1 else 0)
    else start) with hss
  set se := start + len1 with hse_def
  rcases Nat.eq_zero_or_pos x.length with hx0 | hxpos
  · -- empty input: the slice is the bare header, and verification reduces
    -- to the root check on the empty chunk
    have hxnil : x = [] := List.length_eq_zero.mp hx0
    subst hxnil
    have hx8 : (bao_encode [] false).1 = [0, 0, 0, 0, 0, 0, 0, 0] := by
      unfold bao_encode
      rw [encode_recurse_leaf [] 0 false IS_ROOT (by simp)]
      rfl
    have hlit : encode_len ([] : List Nat).length ++ ([] : List Nat) =
        [0, 0, 0, 0, 0, 0, 0, 0] := rfl
    refine ⟨[], ?_, ?_⟩
    · rw [hx8, hlit, bao_slice]
      rw [if_neg (by decide)]
      have hcl : decode_len (List.take HEADER_SIZE [0, 0, 0, 0, 0, 0, 0, 0]) = 0 := by
        decide
      simp only [hcl]
      rw [if_pos (Nat.zero_le start), if_neg (by omega)]
      rw [slice_recurse_before _ _ _ _ _ (by omega)]
      rfl
    · rw [hlit, decode_slice_zero_header]
      rw [if_pos (bao_hash_eq_subtree_cv [] ▸ rfl)]
      rw [if_pos (Or.inr (by simp))]
  · -- non-empty input: apply the producer and verifier specs
    have hse : ss < se := by
      rw [hss, hse_def, hlen1]
      split_ifs <;> omega
    obtain ⟨str, hrec, _, _⟩ := slice_recurse_spec x ss se 0 x.length IS_ROOT []
      (by omega) (by omega) hse
    rw [List.drop_zero, List.take_length, Nat.zero_div, List.append_nil] at hrec
    refine ⟨sliceOut x ss se 0 x.length, ?_, ?_⟩
    · rw [bao_slice, hstream]
      rw [if_neg (by simp only [List.length_append, hhl, HEADER_SIZE]; omega)]
      simp only [htake, hdrop, decode_len_encode_len _ hlen]
      rw [← hlen1, ← hse_def, ← hss, hrec]
    · rw [bao_decode_slice]
      have htake2 : ((encode_len x.length ++ sliceOut x ss se 0 x.length)).take
          HEADER_SIZE = encode_len x.length :=
        take_append_exact _ _ _ (by rw [hhl]; rfl)
      have hdrop2 : ((encode_len x.length ++ sliceOut x ss se 0 x.length)).drop
          HEADER_SIZE = sliceOut x ss se 0 x.length :=
        drop_append_exact _ _ _ (by rw [hhl]; rfl)
      rw [if_neg (by simp only [List.length_append, hhl, HEADER_SIZE]; omega)]
      simp only [htake2, hdrop2, decode_len_encode_len _ hlen]
      rw [← hlen1, ← hse_def, ← hss]
      rw [bao_hash_eq_subtree_cv]
      obtain ⟨str2, hrec2, _, _⟩ := decode_slice_recurse_spec x ss se 0 x.length
        (decide (len = 0 ∨ x.length ≤ start)) IS_ROOT []
        (by omega) (by omega) hse hxpos
      rw [List.drop_zero, List.take_length, Nat.zero_div, List.append_nil] at hrec2
      rw [hrec2]
      by_cases hdeg : len = 0 ∨ x.length ≤ start
      · rw [decide_eq_true hdeg, if_pos hdeg]
        simp
      · rw [decide_eq_false hdeg, if_neg hdeg]
        push_neg at hdeg
        simp only [Bool.false_eq_true, ite_false]
        rw [hss, if_neg (by omega)]
        rw [hse_def, hlen1, if_neg hdeg.1]
        simp [Nat.zero_max]

/-! ## Claim C3: slice soundness -/

/-- C3: for every byte string x (length below 2^64) and every pair
(start, len) with start + len ≤ |x|, slicing the combined encoding and
verifying the slice against `bao_hash x` with the same parameters
succeeds and emits exactly x[start : start+len]. -/
theorem C3_slice_soundness (x : List Nat) (start len : Nat)
    (hlen : x.length < 2 ^ 64) (hrange : start + len ≤ x.length) :
    ∃ sl, bao_slice (bao_encode x false).1 start len = some sl ∧
      bao_decode_slice sl (bao_hash x) start len =
        some ((x.drop start).take len) := by
  obtain ⟨out, h1, h2⟩ := slice_roundtrip_general x start len hlen
  refine ⟨encode_len x.length ++ out, h1, ?_⟩
  rw [h2]
  congr 1
  by_cases h0 : len = 0
  · rw [if_pos (Or.inl h0), h0, List.take_zero]
  · have hns : ¬ (len = 0 ∨ x.length ≤ start) := by
      push_neg
      exact ⟨h0, by omega⟩
    rw [if_neg hns]
    congr 1
    omega

/-- Witness instantiating C3 at a concrete input and range. -/
theorem C3_slice_soundness_witness :
    ([5, 6, 7] : List Nat).length < 2 ^ 64 ∧ 1 + 2 ≤ ([5, 6, 7] : List Nat).length ∧
      ∃ sl, bao_slice (bao_encode [5, 6, 7] false).1 1 2 = some sl ∧
        bao_decode_slice sl (bao_hash [5, 6, 7]) 1 2 =
          some ((([5, 6, 7] : List Nat).drop 1).take 2) :=
  ⟨by norm_num, by norm_num, C3_slice_soundness [5, 6, 7] 1 2 (by norm_num) (by norm_num)⟩

/-! ## Claim C9: out-of-range and zero-length slices -/

/-- C9: for every byte string x (length below 2^64), producing and
verifying a slice with matching degenerate parameters — start beyond the
content or len = 0 — succeeds, the verifier writes no bytes, and the
slice stream itself is non-empty (it begins with the 8-byte header). -/
theorem C9_degenerate_slices (x : List Nat) (start len : Nat)
    (hlen : x.length < 2 ^ 64) (hdeg : x.length ≤ start ∨ len = 0) :
    ∃ sl, bao_slice (bao_encode x false).1 start len = some sl ∧ sl ≠ [] ∧
      bao_decode_slice sl (bao_hash x) start len = some [] := by
  obtain ⟨out, h1, h2⟩ := slice_roundtrip_general x start len hlen
  refine ⟨encode_len x.length ++ out, h1, by simp [encode_len], ?_⟩
  rw [h2, if_pos (by tauto)]

/-- Witness instantiating C9 at concrete degenerate ranges. -/
theorem C9_degenerate_slices_witness :
    (([9] : List Nat).length < 2 ^ 64 ∧ (([9] : List Nat).length ≤ 5 ∨ (0:Nat) = 0) ∧
      ∃ sl, bao_slice (bao_encode [9] false).1 5 0 = some sl ∧ sl ≠ [] ∧
        bao_decode_slice sl (bao_hash [9]) 5 0 = some []) :=
  ⟨by norm_num, Or.inl (by norm_num),
    C9_degenerate_slices [9] 5 0 (by norm_num) (Or.inl (by norm_num))⟩
